import Mathlib

/-!
Confirmation tracking and event waiting in `main.go`.

A shallow embedding of the two receipt waiters of `src/main/main.go`
(`WaitReceipt`, the polling mode, and `WaitReceiptOnNewHead`, the
head-subscription mode), of its two event waiters (`FilterTransferEvent`, the
scan mode, and `WatchTransferEvent`, the subscription mode) with the iterator
`EIP20TransferIterator.Next` of `src/main/erc20.go`, of the transport-mode
selection of `LoadConfig` (`src/main/config.go`) and `main`, and the
properties of them that the specification states.

The RPC client is external: a call is run against a *trace*, the finite list of
what the transport delivered to it (one entry per ticker tick, or one entry per
subscription event selected by the `select` statement).  When the trace is
exhausted and the call has not returned, it is blocked on its channel; this is
reported as `Outcome.waiting`.

Arithmetic.  `uint64` values are natural numbers reduced modulo `2^64`; the
subtraction that computes the confirmation count wraps around, as in Go.  The
`int` parameters (`tryTimes`, `waitBlocks`, `confirms`) and the loop counter
`i` are integers. The sum `waitBlocks+confirms` is the two's complement sum of
a 64-bit `int`. The counter only counts ticks or headers: in `WaitReceipt` it
cannot reach `2^63` in any run, and in `WaitReceiptOnNewHead` it is below the
loop bound when it is incremented, so `i++` is taken without overflow.
-/

namespace DappDemo

/-! ## Data model -/

/-- Go `error` values, identified by their message. -/
abbrev Err := String

/-- The fields of `types.Receipt` the program reads: `BlockNumber` (a
`*big.Int`, non-negative; a receipt returned by the node carries it) and
`Status`. -/
structure Receipt where
  blockNumber : Nat
  status : Nat
deriving DecidableEq, Repr

/-- What a call did on a trace. `returned receipt err` is the Go result pair
`(*types.Receipt, error)`, each component possibly `nil`. -/
inductive Outcome where
  | returned (receipt : Option Receipt) (err : Option Err)
  | waiting
  | exited
deriving DecidableEq, Repr

/-- The observable run of a call: its outcome, the number of ticks or
subscription events it consumed, and the number of `TransactionReceipt` and
`BlockNumber` requests it issued. -/
structure Run where
  outcome : Outcome
  consumed : Nat
  receiptLookups : Nat
  headLookups : Nat
deriving DecidableEq, Repr

/-- One loop iteration that did `rl` receipt lookups and `hl` head lookups,
followed by the rest of the run. -/
def Run.after (rl hl : Nat) (r : Run) : Run :=
  ⟨r.outcome, r.consumed + 1, r.receiptLookups + rl, r.headLookups + hl⟩

/-! ## Machine arithmetic -/

/-- The method `(*big.Int).Uint64` on a non-negative value: the low 64 bits. -/
def Uint64 (x : Nat) : Nat := x % 2 ^ 64

/-- The conversion `uint64(c)` of a Go `int`. -/
def uint64 (c : Int) : Nat := (c % 2 ^ 64).toNat

/-- The value of an `int` expression whose mathematical value is `x`, for the
64-bit `int` of Go: two's complement wrap-around. -/
def wrapInt (x : Int) : Int := (x + 2 ^ 63) % 2 ^ 64 - 2 ^ 63

/-- The confirmation count `head - r.BlockNumber.Uint64()` of both waiters:
subtraction of `uint64` values, which wraps around. -/
def confirm (h b : Nat) : Nat := (Uint64 h + 2 ^ 64 - Uint64 b) % 2 ^ 64

/-! ## `WaitReceipt` (polling mode) -/

/-- What the transport answers on one tick of the ticker: the result of
`conn.TransactionReceipt` and the result `conn.BlockNumber` gives when it is
asked on that tick. -/
structure Tick where
  receipt : Except Err Receipt
  head : Except Err Nat

/-- The `for { select { case <-ticker.C: ... } }` loop of `WaitReceipt`, entered
with counter `i`. -/
def WaitReceiptLoop (tryTimes confirms : Int) : Int → List Tick → Run
  | _, [] => ⟨.waiting, 0, 0, 0⟩
  | i, t :: rest =>
    let i := i + 1
    match t.receipt with
    | .error err =>
      if i ≥ tryTimes then
        ⟨.returned none (some err), 1, 1, 0⟩
      else
        (WaitReceiptLoop tryTimes confirms i rest).after 1 0
    | .ok r =>
      match t.head with
      | .error err => ⟨.returned none (some err), 1, 1, 1⟩
      | .ok head =>
        if confirm head r.blockNumber ≥ uint64 confirms then
          ⟨.returned (some r) none, 1, 1, 1⟩
        else
          (WaitReceiptLoop tryTimes confirms i rest).after 1 1

/-- The function `WaitReceipt(conn, txHash, tryInterval, tryTimes, confirms)`
run against the ticks of its ticker. -/
def WaitReceipt (tryTimes confirms : Int) (ticks : List Tick) : Run :=
  WaitReceiptLoop tryTimes confirms 0 ticks

/-! ## `WaitReceiptOnNewHead` (head-subscription mode) -/

/-- One event selected by the `select` of `WaitReceiptOnNewHead`: a value from
`sub.Err()` (possibly `nil`), or a header from `headers` together with the
answer `conn.TransactionReceipt` gives when that header is processed. -/
inductive HeadEvent where
  | subErr (err : Option Err)
  | header (number : Nat) (receipt : Except Err Receipt)

/-- The bound `waitBlocks+confirms` of the loop of `WaitReceiptOnNewHead`, as
the code computes it: the sum of two `int` values, which wraps around. -/
def loopBound (waitBlocks confirms : Int) : Int := wrapInt (waitBlocks + confirms)

/-- The `for i := 0; i < waitBlocks+confirms; i++` loop of
`WaitReceiptOnNewHead`, entered with counter `i`, and the `return` after it. -/
def WaitReceiptOnNewHeadLoop (waitBlocks confirms : Int) : Int → List HeadEvent → Run
  | i, [] =>
    if i < loopBound waitBlocks confirms then ⟨.waiting, 0, 0, 0⟩
    else ⟨.returned none (some "not found"), 0, 0, 0⟩
  | i, ev :: rest =>
    if i < loopBound waitBlocks confirms then
      match ev with
      | .subErr err => ⟨.returned none err, 1, 0, 0⟩
      | .header _ (.error _) =>
        (WaitReceiptOnNewHeadLoop waitBlocks confirms (i + 1) rest).after 1 0
      | .header number (.ok r) =>
        if confirm number r.blockNumber ≥ uint64 confirms then
          ⟨.returned (some r) none, 1, 1, 0⟩
        else
          (WaitReceiptOnNewHeadLoop waitBlocks confirms (i + 1) rest).after 1 0
    else ⟨.returned none (some "not found"), 0, 0, 0⟩

/-- The function `WaitReceiptOnNewHead(conn, txHash, waitBlocks, confirms)`.
`sub` is the result of `conn.SubscribeNewHead`: an error, or the events the
established subscription delivers. A failed subscription reaches `log.Fatal`,
which ends the process. -/
def WaitReceiptOnNewHead (waitBlocks confirms : Int)
    (sub : Except Err (List HeadEvent)) : Run :=
  match sub with
  | .error _ => ⟨.exited, 0, 0, 0⟩
  | .ok events => WaitReceiptOnNewHeadLoop waitBlocks confirms 0 events

/-- The number of ticks of a trace on which `conn.TransactionReceipt` returned
an error. -/
def failedLookups (ticks : List Tick) : Nat :=
  (ticks.filter fun t => match t.receipt with
    | .error _ => true
    | .ok _ => false).length

/-- A header that does not end the wait by itself: its receipt lookup fails, or
finds a receipt whose computed confirmation count is below the requirement. -/
def HeadEvent.unconfirmed (confirms : Int) : HeadEvent → Bool
  | .subErr _ => false
  | .header _ (.error _) => true
  | .header n (.ok r) => decide (confirm n r.blockNumber < uint64 confirms)

/-! ## Event waiting: `FilterTransferEvent` and `WatchTransferEvent` -/

/-- The fields of an `EIP20Transfer` the program reads: `Raw.BlockNumber`,
`Raw.TxHash` and the log index `Raw.Index` of the underlying `types.Log`. -/
structure EIP20Transfer where
  blockNumber : Nat
  txHash : String
  index : Nat
deriving DecidableEq, Repr

/-- How an event waiter ended. Both waiters return no value: `returned err` is a
`return`, with the error the call logged before it, if any. -/
inductive EventOutcome where
  | returned (err : Option Err)
  | waiting
deriving DecidableEq, Repr

/-- The subtraction `a - b` of `uint64` values. -/
def sub64 (a b : Nat) : Nat := (a % 2 ^ 64 + 2 ^ 64 - b % 2 ^ 64) % 2 ^ 64

/-- What the `select` statements of `EIP20TransferIterator.Next` receive, in the
order they receive it: a log from `it.logs`, with the result of `UnpackLog` on
it, or a value from `it.sub.Err()` (`nil` when that channel is closed). Logs
that were already put on the buffered channel `it.logs` stay there when the
subscription is closed. -/
inductive IterEvent where
  | log (unpacked : Except Err EIP20Transfer)
  | subErr (err : Option Err)

/-- The state of an `EIP20TransferIterator`: the fields `done` and `fail`, and
what its channels still deliver. -/
structure EIP20TransferIterator where
  done : Bool
  fail : Option Err
  feed : List IterEvent

/-- The result of one call of `Next`: blocked in its `select`, `false`, or `true`
with the event left in `it.Event`. -/
inductive NextResult where
  | blocked
  | no (it : EIP20TransferIterator)
  | yes (event : EIP20Transfer) (it : EIP20TransferIterator)

/-- The branch `if it.done { select { case log := <-it.logs: ... default: ... } }`
of `Next`: deliver a log that is available, without blocking. -/
def EIP20TransferIterator.nextAvailable (it : EIP20TransferIterator) : NextResult :=
  match it.feed with
  | .log (.ok ev) :: rest => .yes ev { it with feed := rest }
  | .log (.error e) :: rest => .no { it with fail := some e, feed := rest }
  | _ => .no it

/-- The method `EIP20TransferIterator.Next`. -/
def EIP20TransferIterator.Next (it : EIP20TransferIterator) : NextResult :=
  if it.fail.isSome then .no it
  else if it.done then it.nextAvailable
  else
    match it.feed with
    | [] => .blocked
    | .log (.ok ev) :: rest => .yes ev { it with feed := rest }
    | .log (.error e) :: rest => .no { it with fail := some e, feed := rest }
    | .subErr e :: rest =>
      let it' : EIP20TransferIterator := { it with done := true, fail := e, feed := rest }
      if it'.fail.isSome then .no it' else it'.nextAvailable

/-- The run of the loop `for it.Next() { ... }`: the events its body logged as
`Got ERC20 transfer event`, in order, and whether it is blocked inside `Next`
instead of having left the loop. -/
structure IterRun where
  reported : List EIP20Transfer
  blocked : Bool
deriving DecidableEq, Repr

/-- The loop `for it.Next() { transfer := it.Event; log...; it.Close(); isOk = true }`
of `FilterTransferEvent`. There is no `break` in its body: after `it.Close()`
the loop calls `Next` again. Every `true` of `Next` consumes an entry of the
feed, so `fuel` above the length of the feed is never used up. -/
def forNext : Nat → EIP20TransferIterator → IterRun
  | 0, _ => ⟨[], true⟩
  | fuel + 1, it =>
    match it.Next with
    | .blocked => ⟨[], true⟩
    | .no _ => ⟨[], false⟩
    | .yes ev it' => ⟨ev :: (forNext fuel it').reported, (forNext fuel it').blocked⟩

/-- The observable run of `FilterTransferEvent`: how it ended, the number of
`BlockNumber` requests, the cursor `start` set by the first loop (if it was
set), the ranges `(Start, End)` of the `FilterTransfer` queries in order, and
the events logged as `Got ERC20 transfer event`. -/
structure ScanRun where
  outcome : EventOutcome
  headLookups : Nat
  start : Option Nat
  queries : List (Nat × Nat)
  reported : List EIP20Transfer
deriving DecidableEq, Repr

/-- The second loop of `FilterTransferEvent`, entered with cursor `start`, run
against the answers of the successive `contract.FilterTransfer` calls: an
error, or the feed of the iterator returned. -/
def FilterTransferEventScan : Nat → List (Except Err (List IterEvent)) → ScanRun
  | start, [] => ⟨.waiting, 0, some start, [], []⟩
  | start, q :: rest =>
    let end_ := (start + 1) % 2 ^ 64
    match q with
    | .error err => ⟨.returned (some err), 0, some start, [(start, end_)], []⟩
    | .ok feed =>
      let r := forNext (feed.length + 1) ⟨false, none, feed⟩
      if r.blocked then ⟨.waiting, 0, some start, [(start, end_)], r.reported⟩
      else if r.reported ≠ [] then
        ⟨.returned none, 0, some start, [(start, end_)], r.reported⟩
      else
        let next := FilterTransferEventScan ((start + 1) % 2 ^ 64) rest
        ⟨next.outcome, 0, some start, (start, end_) :: next.queries, next.reported⟩

/-- The function `FilterTransferEvent(wg, contract, client, confirms)`, run
against the answers `heads` of the successive `client.BlockNumber` calls of its
first loop and the answers `rounds` of the `FilterTransfer` calls of its second
loop. -/
def FilterTransferEvent (confirms : Int) :
    List (Except Err Nat) → List (Except Err (List IterEvent)) → ScanRun
  | [], _ => ⟨.waiting, 0, none, [], []⟩
  | .error err :: _, _ => ⟨.returned (some err), 1, none, [], []⟩
  | .ok num :: heads, rounds =>
    if num > uint64 confirms then
      let r := FilterTransferEventScan (sub64 num (uint64 confirms)) rounds
      { r with headLookups := 1 }
    else
      let r := FilterTransferEvent confirms heads rounds
      { r with headLookups := r.headLookups + 1 }

/-- One event selected by the `select` of `WatchTransferEvent`: a value from
`sub.Err()` (possibly `nil`) or a transfer from `sink`. -/
inductive WatchEvent where
  | subErr (err : Option Err)
  | transfer (ev : EIP20Transfer)

/-- The observable run of `WatchTransferEvent`: how it ended, the number of
events it consumed, the events logged as `Got ERC20 transfer event`, and
whether it called `sub.Unsubscribe()` in its loop. -/
structure WatchRun where
  outcome : EventOutcome
  consumed : Nat
  reported : List EIP20Transfer
  unsubscribed : Bool
deriving DecidableEq, Repr

/-- The `for { select { ... } }` loop of `WatchTransferEvent`. The flag tells
whether `sub.Unsubscribe()` was called: it stops the producer of `WatchTransfer`
(`erc20.go`), so that `sink`, an unbuffered channel, has no sender any more, and
it closes the channel `sub.Err()`, so that the next `select` receives `nil`
from it and the function returns. -/
def WatchTransferEventLoop : Bool → List WatchEvent → WatchRun
  | true, _ => ⟨.returned none, 0, [], true⟩
  | false, [] => ⟨.waiting, 0, [], false⟩
  | false, .subErr err :: _ => ⟨.returned err, 1, [], false⟩
  | false, .transfer ev :: rest =>
    let r := WatchTransferEventLoop true rest
    ⟨r.outcome, r.consumed + 1, ev :: r.reported, r.unsubscribed⟩

/-- The function `WatchTransferEvent(wg, contract)`. `sub` is the result of
`contract.WatchTransfer`: an error, which is logged before the `return`, or the
events the established subscription delivers. -/
def WatchTransferEvent (sub : Except Err (List WatchEvent)) : WatchRun :=
  match sub with
  | .error err => ⟨.returned (some err), 0, [], false⟩
  | .ok events => WatchTransferEventLoop false events

/-- One way the goroutines of a `FilterTransfer` query can be scheduled.
`pushed` is the number of logs of the answer that the producer behind the
iterator tries to put on the channel `it.logs` before it ends, and `errAt` the
number of logs `Next` receives before one of its `select` statements takes the
end of the subscription from `it.sub.Err()`; the logs that are on the channel
then are delivered afterwards, by the `it.done` branch of `Next`. -/
structure Schedule where
  pushed : Nat
  errAt : Nat

/-- The logs of an answer `records` that reach the iterator under a schedule:
an initial segment of the answer. The producer puts the logs on the channel in
order; `it.Close()`, which the loop of `FilterTransferEvent` calls as soon as it
has received a log, stops it, and the channel buffers 128 logs. So of an answer
that is not empty at least the first log and at most 129 logs are received. -/
def Schedule.received (sch : Schedule) (records : List EIP20Transfer) : List EIP20Transfer :=
  records.take (min (max sch.pushed 1) 129)

/-- The feed of an iterator whose query found `records`, each log unpacked
without error, under a schedule: the logs received before the end of the
subscription is taken, the end of the subscription, and the rest of the
received logs. -/
def deliver (records : List EIP20Transfer) (sch : Schedule) : List IterEvent :=
  ((sch.received records).take sch.errAt).map (fun r => .log (.ok r)) ++
    .subErr none :: ((sch.received records).drop sch.errAt).map (fun r => .log (.ok r))

/-- The answers of `n` successive rounds of the scan from cursor `s` on a
ledger with a fixed assignment `ledger` of matching records to blocks: the
query for the range `[c, c+1]` finds the records of block `c`, then those of
block `c+1`, and the round with cursor `c` is scheduled by `sched c`. -/
def ledgerRounds (ledger : Nat → List EIP20Transfer) (sched : Nat → Schedule) :
    Nat → Nat → List (Except Err (List IterEvent))
  | _, 0 => []
  | s, n + 1 =>
    .ok (deliver (ledger s ++ ledger (s + 1)) (sched s)) :: ledgerRounds ledger sched (s + 1) n

/-- Block `x` lies in the inclusive range `(Start, End)` of a query. -/
def covers (q : Nat × Nat) (x : Nat) : Bool := decide (q.1 ≤ x ∧ x ≤ q.2)

/-- The query ranges of `k` successive rounds from cursor `s`, when the cursor
does not leave the range of `uint64`: `[s, s+1]`, `[s+1, s+2]`, ... -/
def rangesFrom : Nat → Nat → List (Nat × Nat)
  | _, 0 => []
  | s, k + 1 => (s, s + 1) :: rangesFrom (s + 1) k

/-! ## Configuration and transport-mode selection (`config.go`, `main`) -/

/-- The Go library predicate `unicode.IsSpace`, by code point: tab to carriage
return, space, U+0085, U+00A0 and the white space of the other planes. -/
def isSpace (c : Char) : Bool :=
  (decide (9 ≤ c.toNat) && decide (c.toNat ≤ 13)) || c.toNat == 0x20 || c.toNat == 0x85 ||
  c.toNat == 0xA0 || c.toNat == 0x1680 ||
  (decide (0x2000 ≤ c.toNat) && decide (c.toNat ≤ 0x200A)) ||
  c.toNat == 0x2028 || c.toNat == 0x2029 || c.toNat == 0x202F || c.toNat == 0x205F ||
  c.toNat == 0x3000

/-- Removal of the trailing white space of a list of characters. -/
def trimRight : List Char → List Char
  | [] => []
  | c :: cs =>
    match trimRight cs with
    | [] => if isSpace c then [] else [c]
    | r :: rs => c :: r :: rs

/-- The Go library function `strings.TrimSpace`: the string without its leading
and trailing white space. -/
def TrimSpace (s : String) : String :=
  ⟨trimRight (s.data.dropWhile isSpace)⟩

/-- The Go library function `strings.HasPrefix`. -/
def HasPrefix (s p : String) : Bool :=
  p.data.isPrefixOf s.data

/-- The fields of `Config` that select the transport mode. -/
structure Config where
  RpcUrl : String
  isHttp : Bool
deriving DecidableEq, Repr

/-- The function `LoadConfig`. `rpcUrl` is the result of reading and
unmarshalling the configuration file, reduced to the field `rpcUrl` (the
field `isHttp` is not exported, so it is `false` after `json.Unmarshal`), and
`loadSecret` the result of `conf.loadSecret()`. An error of either ends in
`log.Panicf`, which is `none`. -/
def LoadConfig (rpcUrl : Except Err String) (loadSecret : Except Err Unit) : Option Config :=
  match rpcUrl with
  | .error _ => none
  | .ok url =>
    match loadSecret with
    | .error _ => none
    | .ok _ =>
      if HasPrefix (TrimSpace url) "http" then some ⟨url, true⟩
      else some ⟨url, false⟩

/-- The receipt wait of `main`: `WaitReceipt(client, tx.Hash(), 3*time.Second, 5, 3)`
when `cfg.isHttp`, and `WaitReceiptOnNewHead(client, tx.Hash(), 5, 3)` otherwise. -/
def mainWaitReceipt (cfg : Config) (ticks : List Tick)
    (sub : Except Err (List HeadEvent)) : Run :=
  if cfg.isHttp then WaitReceipt 5 3 ticks else WaitReceiptOnNewHead 5 3 sub

/-- The event wait of `main`: `FilterTransferEvent(wg, contract, client, 3)` when
`cfg.isHttp`, and `WatchTransferEvent(wg, contract)` otherwise. -/
def mainWaitEvent (cfg : Config) (heads : List (Except Err Nat))
    (rounds : List (Except Err (List IterEvent)))
    (sub : Except Err (List WatchEvent)) : ScanRun ⊕ WatchRun :=
  if cfg.isHttp then .inl (FilterTransferEvent 3 heads rounds)
  else .inr (WatchTransferEvent sub)

/-! ## Arithmetic facts -/

theorem uint64_of_nonneg (c : Int) (h0 : 0 ≤ c) (h1 : c < 2 ^ 63) :
    (uint64 c : Int) = c := by
  unfold uint64
  omega

theorem confirm_of_le (h b : Nat) (hb : b ≤ h) (hh : h < 2 ^ 64) :
    confirm h b = h - b := by
  unfold confirm Uint64
  omega

theorem confirm_of_lt (h b : Nat) (hb : h < b) (hh : b < 2 ^ 64) :
    confirm h b = 2 ^ 64 - (b - h) := by
  unfold confirm Uint64
  omega

/-! ## The polling loop -/

theorem WaitReceiptLoop_cons_error (tryTimes confirms i : Int) (e : Err)
    (hd : Except Err Nat) (rest : List Tick) :
    WaitReceiptLoop tryTimes confirms i (⟨.error e, hd⟩ :: rest) =
      if i + 1 ≥ tryTimes then ⟨.returned none (some e), 1, 1, 0⟩
      else (WaitReceiptLoop tryTimes confirms (i + 1) rest).after 1 0 := by
  simp [WaitReceiptLoop]

theorem WaitReceiptLoop_cons_headError (tryTimes confirms i : Int) (r : Receipt)
    (e : Err) (rest : List Tick) :
    WaitReceiptLoop tryTimes confirms i (⟨.ok r, .error e⟩ :: rest) =
      ⟨.returned none (some e), 1, 1, 1⟩ := by
  simp [WaitReceiptLoop]

theorem WaitReceiptLoop_cons_found (tryTimes confirms i : Int) (r : Receipt)
    (h : Nat) (rest : List Tick) :
    WaitReceiptLoop tryTimes confirms i (⟨.ok r, .ok h⟩ :: rest) =
      if confirm h r.blockNumber ≥ uint64 confirms then ⟨.returned (some r) none, 1, 1, 1⟩
      else (WaitReceiptLoop tryTimes confirms (i + 1) rest).after 1 1 := by
  simp [WaitReceiptLoop]

theorem WaitReceiptLoop_waiting (tryTimes confirms : Int) (ticks : List Tick) :
    ∀ i : Int, (WaitReceiptLoop tryTimes confirms i ticks).outcome = .waiting →
      (WaitReceiptLoop tryTimes confirms i ticks).consumed = ticks.length ∧
      (WaitReceiptLoop tryTimes confirms i ticks).receiptLookups = ticks.length := by
  induction ticks with
  | nil => intro i _; simp [WaitReceiptLoop]
  | cons t rest ih =>
    intro i
    rcases t with ⟨rc, hd⟩
    cases rc with
    | error e =>
      rw [WaitReceiptLoop_cons_error]
      split
      · simp
      · intro hw
        have := ih _ hw
        simp [Run.after, this.1, this.2]
    | ok r =>
      cases hd with
      | error e => rw [WaitReceiptLoop_cons_headError]; simp
      | ok h =>
        rw [WaitReceiptLoop_cons_found]
        split
        · simp
        · intro hw
          have := ih _ hw
          simp [Run.after, this.1, this.2]

/-- Once a prefix of the trace has been consumed without a result, the loop
goes on with the rest of the trace and the counter advanced by the length of
the prefix. -/
theorem WaitReceiptLoop_append (tryTimes confirms : Int) (pre rest : List Tick) :
    ∀ i : Int, (WaitReceiptLoop tryTimes confirms i pre).outcome = .waiting →
      WaitReceiptLoop tryTimes confirms i (pre ++ rest) =
        ⟨(WaitReceiptLoop tryTimes confirms (i + pre.length) rest).outcome,
         pre.length + (WaitReceiptLoop tryTimes confirms (i + pre.length) rest).consumed,
         pre.length + (WaitReceiptLoop tryTimes confirms (i + pre.length) rest).receiptLookups,
         (WaitReceiptLoop tryTimes confirms i pre).headLookups +
           (WaitReceiptLoop tryTimes confirms (i + pre.length) rest).headLookups⟩ := by
  induction pre with
  | nil => intro i _; simp [WaitReceiptLoop]
  | cons t pre ih =>
    intro i
    rcases t with ⟨rc, hd⟩
    have hi : i + ((pre.length : Int) + 1) = i + 1 + pre.length := by ring
    cases rc with
    | error e =>
      rw [List.cons_append, WaitReceiptLoop_cons_error, WaitReceiptLoop_cons_error]
      split
      · simp
      · intro hw
        simp only [Run.after] at hw
        rw [ih _ hw]
        simp [Run.after, hi]
        omega
    | ok r =>
      cases hd with
      | error e => rw [WaitReceiptLoop_cons_headError]; simp
      | ok h =>
        rw [List.cons_append, WaitReceiptLoop_cons_found, WaitReceiptLoop_cons_found]
        split
        · simp
        · intro hw
          simp only [Run.after] at hw
          rw [ih _ hw]
          simp [Run.after, hi]
          omega

/-- Every tick consumed without a result either failed to find the receipt or
found one whose computed confirmation count is below the requirement. -/
theorem WaitReceiptLoop_waiting_mem (tryTimes confirms : Int) (ticks : List Tick) :
    ∀ i : Int, (WaitReceiptLoop tryTimes confirms i ticks).outcome = .waiting →
      ∀ x ∈ ticks, ∀ r h, x.receipt = .ok r → x.head = .ok h →
        confirm h r.blockNumber < uint64 confirms := by
  induction ticks with
  | nil => intro i _ x hx; simp at hx
  | cons t rest ih =>
    intro i
    rcases t with ⟨rc, hd⟩
    cases rc with
    | error e =>
      rw [WaitReceiptLoop_cons_error]
      split
      · simp
      · intro hw x hx r h hr hh
        rcases List.mem_cons.1 hx with rfl | hx
        · simp at hr
        · exact ih _ hw x hx r h hr hh
    | ok r0 =>
      cases hd with
      | error e => rw [WaitReceiptLoop_cons_headError]; simp
      | ok h0 =>
        rw [WaitReceiptLoop_cons_found]
        split
        · simp
        · rename_i hlt
          intro hw x hx r h hr hh
          rcases List.mem_cons.1 hx with rfl | hx
          · simp only [Except.ok.injEq] at hr hh
            subst hr hh
            omega
          · exact ih _ hw x hx r h hr hh

/-- A trace of failed receipt lookups that stays below the budget is consumed
without a result and without a head lookup. -/
theorem WaitReceiptLoop_fails_below (tryTimes confirms : Int) (ticks : List Tick) :
    ∀ i : Int, (∀ x ∈ ticks, ∃ e, x.receipt = .error e) → i + ticks.length < tryTimes →
      WaitReceiptLoop tryTimes confirms i ticks = ⟨.waiting, ticks.length, ticks.length, 0⟩ := by
  induction ticks with
  | nil => intro i _ _; simp [WaitReceiptLoop]
  | cons t rest ih =>
    intro i hall hlt
    rcases t with ⟨rc, hd⟩
    obtain ⟨e, he⟩ := hall _ (List.mem_cons_self _ _)
    simp only at he
    subst he
    rw [WaitReceiptLoop_cons_error]
    simp only [List.length_cons, Nat.cast_add, Nat.cast_one] at hlt
    rw [if_neg (by omega), ih (i + 1) (fun x hx => hall x (List.mem_cons_of_mem _ hx)) (by omega)]
    simp [Run.after]

/-! ## Claims on `WaitReceipt` -/

/-- C1. Polling mode, on a trace whose found receipts have an inclusion block at
most the head observed on the same tick: when no earlier tick ended the call, a
tick on which the receipt `r` is found, the head lookup gives `h` and
`h - r.blockNumber ≥ confirms` makes the call return exactly `r` with no error
at that tick, and that tick is the first one with this property; a tick on
which the receipt is found with `h - r.blockNumber < confirms` returns nothing
and the call keeps polling. -/
theorem WaitReceipt_returns_at_first_confirmed_tick
    (tryTimes confirms : Int) (pre post : List Tick) (r : Receipt) (h : Nat)
    (hc0 : 0 ≤ confirms) (hc1 : confirms < 2 ^ 63)
    (hhead : ∀ x ∈ pre ++ [⟨.ok r, .ok h⟩], ∀ r' h', x.receipt = .ok r' → x.head = .ok h' →
      r'.blockNumber ≤ h' ∧ h' < 2 ^ 64)
    (hpre : (WaitReceipt tryTimes confirms pre).outcome = .waiting) :
    (confirms ≤ (h : Int) - r.blockNumber →
      (WaitReceipt tryTimes confirms (pre ++ ⟨.ok r, .ok h⟩ :: post)).outcome
          = .returned (some r) none ∧
      (WaitReceipt tryTimes confirms (pre ++ ⟨.ok r, .ok h⟩ :: post)).consumed
          = pre.length + 1 ∧
      ∀ x ∈ pre, ∀ r' h', x.receipt = .ok r' → x.head = .ok h' →
        (h' : Int) - r'.blockNumber < confirms) ∧
    ((h : Int) - r.blockNumber < confirms →
      (WaitReceipt tryTimes confirms (pre ++ [⟨.ok r, .ok h⟩])).outcome = .waiting ∧
      (WaitReceipt tryTimes confirms (pre ++ [⟨.ok r, .ok h⟩])).consumed = pre.length + 1) := by
  have hu := uint64_of_nonneg confirms hc0 hc1
  have ht := hhead ⟨.ok r, .ok h⟩ (by simp) r h rfl rfl
  have hcf := confirm_of_le h r.blockNumber ht.1 ht.2
  unfold WaitReceipt at hpre ⊢
  constructor
  · intro hge
    rw [WaitReceiptLoop_append _ _ _ _ _ hpre, WaitReceiptLoop_cons_found,
      if_pos (by omega)]
    refine ⟨rfl, rfl, ?_⟩
    intro x hx r' h' hr' hh'
    have hlt := WaitReceiptLoop_waiting_mem _ _ _ _ hpre x hx r' h' hr' hh'
    have hx' := hhead x (by simp [hx]) r' h' hr' hh'
    rw [confirm_of_le h' r'.blockNumber hx'.1 hx'.2] at hlt
    omega
  · intro hlt
    rw [WaitReceiptLoop_append _ _ _ _ _ hpre, WaitReceiptLoop_cons_found,
      if_neg (by omega)]
    simp [Run.after, WaitReceiptLoop]

theorem WaitReceipt_returns_at_first_confirmed_tick_witness :
    (WaitReceipt 5 3 ([⟨.error "not found", .ok 100⟩, ⟨.ok ⟨100, 1⟩, .ok 102⟩] ++
        ⟨.ok ⟨100, 1⟩, .ok 103⟩ :: [⟨.ok ⟨100, 1⟩, .ok 104⟩])).outcome
      = .returned (some ⟨100, 1⟩) none ∧
    (WaitReceipt 5 3 ([⟨.error "not found", .ok 100⟩, ⟨.ok ⟨100, 1⟩, .ok 102⟩] ++
        ⟨.ok ⟨100, 1⟩, .ok 103⟩ :: [⟨.ok ⟨100, 1⟩, .ok 104⟩])).consumed = 3 :=
  have h := (WaitReceipt_returns_at_first_confirmed_tick 5 3
    [⟨.error "not found", .ok 100⟩, ⟨.ok ⟨100, 1⟩, .ok 102⟩] [⟨.ok ⟨100, 1⟩, .ok 104⟩]
    ⟨100, 1⟩ 103 (by decide) (by decide)
    (by
      intro x hx r' h' hr hh
      simp only [List.cons_append, List.nil_append, List.mem_cons, List.mem_singleton,
        List.mem_nil_iff, or_false] at hx
      rcases hx with rfl | rfl | rfl
      · simp at hr
      · simp only [Except.ok.injEq] at hr hh; subst hr hh; decide
      · simp only [Except.ok.injEq] at hr hh; subst hr hh; decide)
    (by decide)).1 (by decide)
  ⟨h.1, h.2.1⟩

/-- The budget is hit by a run of failed lookups exactly when the counter
reaches `tryTimes`: the error returned is the one of the last lookup. -/
theorem WaitReceiptLoop_fails_exact (tryTimes confirms : Int) (rest : List Tick)
    (fails : List Tick) :
    ∀ i : Int, fails ≠ [] → (∀ x ∈ fails, ∃ e, x.receipt = .error e) →
      i + fails.length = tryTimes →
      ∃ e, fails.getLast?.map Tick.receipt = some (.error e) ∧
        WaitReceiptLoop tryTimes confirms i (fails ++ rest) =
          ⟨.returned none (some e), fails.length, fails.length, 0⟩ := by
  induction fails with
  | nil => intro i h; exact absurd rfl h
  | cons t fails ih =>
    intro i _ hall hlen
    rcases t with ⟨rc, hd⟩
    obtain ⟨e, he⟩ := hall _ (List.mem_cons_self _ _)
    simp only at he
    subst he
    simp only [List.length_cons, Nat.cast_add, Nat.cast_one] at hlen
    rw [List.cons_append, WaitReceiptLoop_cons_error]
    cases fails with
    | nil =>
      simp only [List.length_nil, Nat.cast_zero] at hlen
      refine ⟨e, by simp, ?_⟩
      rw [if_pos (by omega)]
      simp
    | cons t' fails' =>
      simp only [List.length_cons, Nat.cast_add, Nat.cast_one] at hlen
      obtain ⟨e', hl, hrun⟩ := ih (i + 1) (by simp)
        (fun x hx => hall x (List.mem_cons_of_mem _ hx))
        (by simp only [List.length_cons, Nat.cast_add, Nat.cast_one]; omega)
      refine ⟨e', by simpa [List.getLast?_cons_cons] using hl, ?_⟩
      rw [if_neg (by omega), hrun]
      simp [Run.after]

/-- C2. Polling mode with retry budget `tryTimes = N ≥ 1`: when the first `N`
receipt lookups all fail, the call returns the error of the `N`-th lookup (and
no receipt) on the `N`-th tick, after exactly `N` receipt lookups and no head
lookup, whatever the trace holds after these ticks; after any `k < N` of these
ticks it has not returned. -/
theorem WaitReceipt_fails_after_budget (N : Nat) (confirms : Int)
    (fails rest : List Tick) (hN : 1 ≤ N) (hlen : fails.length = N)
    (hfail : ∀ x ∈ fails, ∃ e, x.receipt = .error e) :
    (∃ e, fails.getLast?.map Tick.receipt = some (.error e) ∧
      WaitReceipt N confirms (fails ++ rest) = ⟨.returned none (some e), N, N, 0⟩) ∧
    ∀ k, k < N → WaitReceipt N confirms (fails.take k) = ⟨.waiting, k, k, 0⟩ := by
  unfold WaitReceipt
  constructor
  · have hne : fails ≠ [] := by
      intro h
      rw [h] at hlen
      simp at hlen
      omega
    obtain ⟨e, hl, hrun⟩ := WaitReceiptLoop_fails_exact N confirms rest fails 0 hne hfail
      (by simp [hlen])
    exact ⟨e, hl, by rw [hrun, hlen]⟩
  · intro k hk
    have hlk : (fails.take k).length = k := by
      rw [List.length_take]; omega
    have := WaitReceiptLoop_fails_below N confirms (fails.take k) 0
      (fun x hx => hfail x (List.mem_of_mem_take hx)) (by rw [hlk]; omega)
    rw [this, hlk]

theorem WaitReceipt_fails_after_budget_witness :
    WaitReceipt (2 : Nat) 3 ([⟨.error "a", .ok 7⟩, ⟨.error "b", .ok 7⟩] ++
        [⟨.ok ⟨5, 1⟩, .ok 9⟩]) = ⟨.returned none (some "b"), 2, 2, 0⟩ ∧
    WaitReceipt (2 : Nat) 3 (List.take 1 [⟨.error "a", .ok 7⟩, ⟨.error "b", .ok 7⟩])
      = ⟨.waiting, 1, 1, 0⟩ := by
  have h := WaitReceipt_fails_after_budget 2 3 [⟨.error "a", .ok 7⟩, ⟨.error "b", .ok 7⟩]
    [⟨.ok ⟨5, 1⟩, .ok 9⟩] (by decide) rfl
    (by
      intro x hx
      simp only [List.mem_cons, List.mem_singleton, List.mem_nil_iff, or_false] at hx
      rcases hx with rfl | rfl
      · exact ⟨"a", rfl⟩
      · exact ⟨"b", rfl⟩)
  refine ⟨?_, h.2 1 (by decide)⟩
  obtain ⟨e, he, hrun⟩ := h.1
  simp at he
  subst he
  exact hrun

/-- C3 fails as stated: with `tryTimes = 2`, a first tick that finds the receipt
at block 100 under head 100 (fewer than 3 confirmations) is followed by a tick
whose receipt lookup fails. That failure ends the call with its error although
it is the first failed lookup of the call, not the second. -/
theorem WaitReceipt_unconfirmed_tick_uses_budget :
    (WaitReceipt 2 3 [⟨.ok ⟨100, 1⟩, .ok 100⟩]).outcome = .waiting ∧
    WaitReceipt 2 3 [⟨.ok ⟨100, 1⟩, .ok 100⟩, ⟨.error "not found", .ok 100⟩]
      = ⟨.returned none (some "not found"), 2, 2, 1⟩ ∧
    failedLookups [⟨.ok ⟨100, 1⟩, .ok 100⟩, ⟨.error "not found", .ok 100⟩] = 1 ∧
    (1 : Int) < 2 := by
  decide

/-- C3, amended. The counter compared against the retry budget counts every
tick, whether the receipt lookup failed or found a receipt that is not yet
confirmed: while the call is still polling after the ticks `pre`, a failed
receipt lookup on the next tick ends the call, with the error of that lookup,
if and only if that tick is at least the `tryTimes`-th tick of the call; on an
earlier tick the call keeps polling. -/
theorem WaitReceipt_failed_lookup_ends_iff_tick_budget
    (tryTimes confirms : Int) (pre : List Tick) (e : Err) (hd : Except Err Nat)
    (hpre : (WaitReceipt tryTimes confirms pre).outcome = .waiting) :
    ((WaitReceipt tryTimes confirms (pre ++ [⟨.error e, hd⟩])).outcome
        = .returned none (some e) ↔ tryTimes ≤ pre.length + 1) ∧
    ((WaitReceipt tryTimes confirms (pre ++ [⟨.error e, hd⟩])).outcome
        = .waiting ↔ (pre.length : Int) + 1 < tryTimes) := by
  unfold WaitReceipt at hpre ⊢
  rw [WaitReceiptLoop_append _ _ _ _ _ hpre, WaitReceiptLoop_cons_error]
  by_cases hb : (0 : Int) + pre.length + 1 ≥ tryTimes
  · rw [if_pos hb]
    simp
    omega
  · rw [if_neg hb]
    simp [Run.after, WaitReceiptLoop]
    omega

theorem WaitReceipt_failed_lookup_ends_iff_tick_budget_witness :
    (WaitReceipt 2 3 ([⟨.ok ⟨100, 1⟩, .ok 100⟩] ++ [⟨.error "not found", .ok 100⟩])).outcome
        = .returned none (some "not found") ↔ (2 : Int) ≤ ([⟨.ok ⟨100, 1⟩, .ok 100⟩] :
          List Tick).length + 1 :=
  (WaitReceipt_failed_lookup_ends_iff_tick_budget 2 3 [⟨.ok ⟨100, 1⟩, .ok 100⟩]
    "not found" (.ok 100) (by decide)).1

/-- C4. Polling mode has no bound on the not-yet-confirmed phase: for every
`tryTimes` and every `confirms ≥ 1`, after any number of ticks on each of which
the receipt is found and the head `h` satisfies
`blockNumber ≤ h < blockNumber + confirms`, the call has not returned; it did
one receipt lookup and one head lookup per tick. -/
theorem WaitReceipt_unconfirmed_never_returns (tryTimes confirms : Int)
    (ticks : List Tick) (hc0 : 1 ≤ confirms) (hc1 : confirms < 2 ^ 63)
    (hun : ∀ x ∈ ticks, ∃ r h, x.receipt = .ok r ∧ x.head = .ok h ∧
      r.blockNumber ≤ h ∧ (h : Int) < r.blockNumber + confirms ∧ h < 2 ^ 64) :
    WaitReceipt tryTimes confirms ticks
      = ⟨.waiting, ticks.length, ticks.length, ticks.length⟩ := by
  have hu := uint64_of_nonneg confirms (by omega) hc1
  unfold WaitReceipt
  generalize (0 : Int) = i
  induction ticks generalizing i with
  | nil => simp [WaitReceiptLoop]
  | cons t rest ih =>
    rcases t with ⟨rc, hd⟩
    obtain ⟨r, h, hr, hh, hle, hlt, h64⟩ := hun _ (List.mem_cons_self _ _)
    simp only at hr hh
    subst hr hh
    have hcf := confirm_of_le h r.blockNumber hle h64
    rw [WaitReceiptLoop_cons_found, if_neg (by omega),
      ih (fun x hx => hun x (List.mem_cons_of_mem _ hx))]
    simp [Run.after]

theorem WaitReceipt_unconfirmed_never_returns_witness :
    WaitReceipt 1 3 [⟨.ok ⟨100, 1⟩, .ok 100⟩, ⟨.ok ⟨100, 1⟩, .ok 101⟩,
        ⟨.ok ⟨100, 1⟩, .ok 102⟩, ⟨.ok ⟨100, 1⟩, .ok 102⟩]
      = ⟨.waiting, 4, 4, 4⟩ :=
  WaitReceipt_unconfirmed_never_returns 1 3 _ (by decide) (by decide)
    (by
      intro x hx
      simp only [List.mem_cons, List.mem_singleton, List.mem_nil_iff, or_false] at hx
      rcases hx with rfl | rfl | rfl | rfl
      · exact ⟨⟨100, 1⟩, 100, rfl, rfl, by decide⟩
      · exact ⟨⟨100, 1⟩, 101, rfl, rfl, by decide⟩
      · exact ⟨⟨100, 1⟩, 102, rfl, rfl, by decide⟩
      · exact ⟨⟨100, 1⟩, 102, rfl, rfl, by decide⟩)

/-! ## The head-subscription loop -/

theorem loopBound_of_range (waitBlocks confirms : Int)
    (hlo : -2 ^ 63 ≤ waitBlocks + confirms) (hhi : waitBlocks + confirms < 2 ^ 63) :
    loopBound waitBlocks confirms = waitBlocks + confirms := by
  unfold loopBound wrapInt
  omega

theorem WaitReceiptOnNewHeadLoop_done (waitBlocks confirms i : Int)
    (events : List HeadEvent) (hi : ¬ i < loopBound waitBlocks confirms) :
    WaitReceiptOnNewHeadLoop waitBlocks confirms i events =
      ⟨.returned none (some "not found"), 0, 0, 0⟩ := by
  cases events <;> simp [WaitReceiptOnNewHeadLoop, hi]

theorem WaitReceiptOnNewHeadLoop_cons_subErr (waitBlocks confirms i : Int)
    (e : Option Err) (rest : List HeadEvent) (hi : i < loopBound waitBlocks confirms) :
    WaitReceiptOnNewHeadLoop waitBlocks confirms i (.subErr e :: rest) =
      ⟨.returned none e, 1, 0, 0⟩ := by
  simp [WaitReceiptOnNewHeadLoop, hi]

theorem WaitReceiptOnNewHeadLoop_cons_error (waitBlocks confirms i : Int) (n : Nat)
    (e : Err) (rest : List HeadEvent) (hi : i < loopBound waitBlocks confirms) :
    WaitReceiptOnNewHeadLoop waitBlocks confirms i (.header n (.error e) :: rest) =
      (WaitReceiptOnNewHeadLoop waitBlocks confirms (i + 1) rest).after 1 0 := by
  simp [WaitReceiptOnNewHeadLoop, hi]

theorem WaitReceiptOnNewHeadLoop_cons_found (waitBlocks confirms i : Int) (n : Nat)
    (r : Receipt) (rest : List HeadEvent) (hi : i < loopBound waitBlocks confirms) :
    WaitReceiptOnNewHeadLoop waitBlocks confirms i (.header n (.ok r) :: rest) =
      if confirm n r.blockNumber ≥ uint64 confirms then ⟨.returned (some r) none, 1, 1, 0⟩
      else (WaitReceiptOnNewHeadLoop waitBlocks confirms (i + 1) rest).after 1 0 := by
  simp [WaitReceiptOnNewHeadLoop, hi]

/-- Headers that do not end the wait, fewer than the bound, are consumed
without a result, with one receipt lookup each. -/
theorem WaitReceiptOnNewHeadLoop_unconfirmed (waitBlocks confirms : Int)
    (events : List HeadEvent) :
    ∀ i : Int, (∀ x ∈ events, x.unconfirmed confirms = true) →
      i + events.length < loopBound waitBlocks confirms →
      WaitReceiptOnNewHeadLoop waitBlocks confirms i events =
        ⟨.waiting, events.length, events.length, 0⟩ := by
  induction events with
  | nil => intro i _ hi; simp at hi; simp [WaitReceiptOnNewHeadLoop, hi]
  | cons ev rest ih =>
    intro i hall hlt
    simp only [List.length_cons, Nat.cast_add, Nat.cast_one] at hlt
    have hi : i < loopBound waitBlocks confirms := by omega
    have hev := hall ev (List.mem_cons_self _ _)
    have hrest := ih (i + 1) (fun x hx => hall x (List.mem_cons_of_mem _ hx)) (by omega)
    match ev, hev with
    | .header n (.error e), _ =>
      rw [WaitReceiptOnNewHeadLoop_cons_error _ _ _ _ _ _ hi, hrest]
      simp [Run.after]
    | .header n (.ok r), hev =>
      simp only [HeadEvent.unconfirmed, decide_eq_true_eq] at hev
      rw [WaitReceiptOnNewHeadLoop_cons_found _ _ _ _ _ _ hi, if_neg (by omega), hrest]
      simp [Run.after]

/-- A run that is still waiting consumed only headers that do not end the wait
and stayed below the bound. -/
theorem WaitReceiptOnNewHeadLoop_waiting (waitBlocks confirms : Int)
    (events : List HeadEvent) :
    ∀ i : Int, (WaitReceiptOnNewHeadLoop waitBlocks confirms i events).outcome = .waiting →
      (∀ x ∈ events, x.unconfirmed confirms = true) ∧
      i + events.length < loopBound waitBlocks confirms := by
  induction events with
  | nil =>
    intro i hw
    by_cases hi : i < loopBound waitBlocks confirms
    · simpa using hi
    · rw [WaitReceiptOnNewHeadLoop_done _ _ _ _ hi] at hw
      simp at hw
  | cons ev rest ih =>
    intro i hw
    by_cases hi : i < loopBound waitBlocks confirms
    · match ev with
      | .subErr e =>
        rw [WaitReceiptOnNewHeadLoop_cons_subErr _ _ _ _ _ hi] at hw
        simp at hw
      | .header n (.error e) =>
        rw [WaitReceiptOnNewHeadLoop_cons_error _ _ _ _ _ _ hi] at hw
        obtain ⟨h1, h2⟩ := ih (i + 1) hw
        refine ⟨?_, by simp only [List.length_cons, Nat.cast_add, Nat.cast_one]; omega⟩
        intro x hx
        rcases List.mem_cons.1 hx with rfl | hx
        · simp [HeadEvent.unconfirmed]
        · exact h1 x hx
      | .header n (.ok r) =>
        rw [WaitReceiptOnNewHeadLoop_cons_found _ _ _ _ _ _ hi] at hw
        by_cases hc : confirm n r.blockNumber ≥ uint64 confirms
        · rw [if_pos hc] at hw
          simp at hw
        · rw [if_neg hc] at hw
          obtain ⟨h1, h2⟩ := ih (i + 1) hw
          refine ⟨?_, by simp only [List.length_cons, Nat.cast_add, Nat.cast_one]; omega⟩
          intro x hx
          rcases List.mem_cons.1 hx with rfl | hx
          · simp only [HeadEvent.unconfirmed, decide_eq_true_eq]; omega
          · exact h1 x hx
    · rw [WaitReceiptOnNewHeadLoop_done _ _ _ _ hi] at hw
      simp at hw

/-- After a prefix of headers that do not end the wait, the loop goes on with
the rest of the events and the counter advanced by the length of the prefix. -/
theorem WaitReceiptOnNewHeadLoop_append (waitBlocks confirms : Int)
    (pre rest : List HeadEvent) :
    ∀ i : Int, (∀ x ∈ pre, x.unconfirmed confirms = true) →
      i + pre.length ≤ loopBound waitBlocks confirms →
      WaitReceiptOnNewHeadLoop waitBlocks confirms i (pre ++ rest) =
        ⟨(WaitReceiptOnNewHeadLoop waitBlocks confirms (i + pre.length) rest).outcome,
         pre.length + (WaitReceiptOnNewHeadLoop waitBlocks confirms (i + pre.length) rest).consumed,
         pre.length +
           (WaitReceiptOnNewHeadLoop waitBlocks confirms (i + pre.length) rest).receiptLookups,
         (WaitReceiptOnNewHeadLoop waitBlocks confirms (i + pre.length) rest).headLookups⟩ := by
  induction pre with
  | nil => intro i _ _; simp
  | cons ev pre ih =>
    intro i hall hle
    simp only [List.length_cons, Nat.cast_add, Nat.cast_one] at hle
    have hi : i < loopBound waitBlocks confirms := by omega
    have hev := hall ev (List.mem_cons_self _ _)
    have hrest := ih (i + 1) (fun x hx => hall x (List.mem_cons_of_mem _ hx)) (by omega)
    have hidx : i + ((pre.length : Int) + 1) = i + 1 + pre.length := by ring
    match ev, hev with
    | .header n (.error e), _ =>
      rw [List.cons_append, WaitReceiptOnNewHeadLoop_cons_error _ _ _ _ _ _ hi, hrest]
      simp [Run.after, hidx]
      omega
    | .header n (.ok r), hev =>
      simp only [HeadEvent.unconfirmed, decide_eq_true_eq] at hev
      rw [List.cons_append, WaitReceiptOnNewHeadLoop_cons_found _ _ _ _ _ _ hi,
        if_neg (by omega), hrest]
      simp [Run.after, hidx]
      omega

theorem HeadEvent.unconfirmed_of_header (confirms : Int) (x : HeadEvent)
    (h : ∃ n lk, x = .header n lk ∧
      ∀ r, lk = .ok r → confirm n r.blockNumber < uint64 confirms) :
    x.unconfirmed confirms = true := by
  obtain ⟨n, lk, rfl, hlk⟩ := h
  cases lk with
  | error e => rfl
  | ok r => simpa [HeadEvent.unconfirmed] using hlk r rfl

/-! ## Claims on `WaitReceiptOnNewHead` -/

/-- C5. Head-subscription mode with `B = waitBlocks + confirms` (a sum within
the range of `int`), on headers
whose number is at least the inclusion block of the receipt found on them: the
call returns, with no error, the receipt fetched on the first header, among the
first `B`, on which the lookup succeeds with
`header.number - blockNumber ≥ confirms`; and fewer than `B` headers on which
the lookup fails or succeeds with a smaller depth leave the call waiting for the
next header, with one receipt lookup per header. -/
theorem WaitReceiptOnNewHead_returns_at_first_confirmed_header
    (waitBlocks confirms : Int) (pre post : List HeadEvent) (n : Nat) (r : Receipt)
    (hc0 : 0 ≤ confirms) (hc1 : confirms < 2 ^ 63)
    (hsum : waitBlocks + confirms < 2 ^ 63)
    (hB : (pre.length : Int) < waitBlocks + confirms)
    (hpre : ∀ x ∈ pre, ∃ m lk, x = .header m lk ∧
      ∀ r', lk = .ok r' → r'.blockNumber ≤ m ∧ m < 2 ^ 64 ∧ (m : Int) - r'.blockNumber < confirms)
    (hbn : r.blockNumber ≤ n) (hn : n < 2 ^ 64) :
    (confirms ≤ (n : Int) - r.blockNumber →
      WaitReceiptOnNewHead waitBlocks confirms (.ok (pre ++ .header n (.ok r) :: post))
        = ⟨.returned (some r) none, pre.length + 1, pre.length + 1, 0⟩) ∧
    WaitReceiptOnNewHead waitBlocks confirms (.ok pre)
      = ⟨.waiting, pre.length, pre.length, 0⟩ := by
  have hu := uint64_of_nonneg confirms hc0 hc1
  have hbound := loopBound_of_range waitBlocks confirms (by omega) hsum
  have hun : ∀ x ∈ pre, x.unconfirmed confirms = true := by
    intro x hx
    obtain ⟨m, lk, hxe, hlk⟩ := hpre x hx
    refine HeadEvent.unconfirmed_of_header confirms x ⟨m, lk, hxe, ?_⟩
    intro r' hr'
    obtain ⟨h1, h2, h3⟩ := hlk r' hr'
    rw [confirm_of_le m r'.blockNumber h1 h2]
    omega
  simp only [WaitReceiptOnNewHead]
  constructor
  · intro hge
    have hcf := confirm_of_le n r.blockNumber hbn hn
    rw [WaitReceiptOnNewHeadLoop_append _ _ _ _ _ hun (by omega),
      WaitReceiptOnNewHeadLoop_cons_found _ _ _ _ _ _ (by omega), if_pos (by omega)]
  · exact WaitReceiptOnNewHeadLoop_unconfirmed _ _ _ _ hun (by omega)

theorem WaitReceiptOnNewHead_returns_at_first_confirmed_header_witness :
    WaitReceiptOnNewHead 5 3 (.ok ([.header 100 (.error "not found"),
        .header 101 (.ok ⟨101, 1⟩)] ++ .header 104 (.ok ⟨101, 1⟩) :: [.subErr none]))
      = ⟨.returned (some ⟨101, 1⟩) none, 3, 3, 0⟩ :=
  (WaitReceiptOnNewHead_returns_at_first_confirmed_header 5 3
    [.header 100 (.error "not found"), .header 101 (.ok ⟨101, 1⟩)] [.subErr none]
    104 ⟨101, 1⟩ (by decide) (by decide) (by decide) (by decide)
    (by
      intro x hx
      simp only [List.mem_cons, List.mem_singleton, List.mem_nil_iff, or_false] at hx
      rcases hx with rfl | rfl
      · exact ⟨100, .error "not found", rfl, fun r' hr' => by simp at hr'⟩
      · refine ⟨101, .ok ⟨101, 1⟩, rfl, fun r' hr' => ?_⟩
        simp only [Except.ok.injEq] at hr'
        subst hr'
        decide)
    (by decide) (by decide)).1 (by decide)

/-- C6 at the failing input: `waitBlocks = 1` and `confirms = 3`, so the bound is
4, and four headers are delivered, 99 to 102, on each of which the receipt is
found at block 100 (the transaction was included after header 99 was emitted).
On none of them `header.number - blockNumber ≥ 3` holds, the depths being -1,
0, 1 and 2; yet the call does not end with an error after the fourth header:
on header 99 the `uint64` subtraction wraps and the call returns the receipt
after one header and one lookup. -/
theorem WaitReceiptOnNewHead_returns_receipt_before_bound :
    (1 : Int) + 3 = 4 ∧
    ((99 : Int) - 100 < 3 ∧ (100 : Int) - 100 < 3 ∧ (101 : Int) - 100 < 3 ∧
      (102 : Int) - 100 < 3) ∧
    WaitReceiptOnNewHead 1 3 (.ok [.header 99 (.ok ⟨100, 1⟩), .header 100 (.ok ⟨100, 1⟩),
        .header 101 (.ok ⟨100, 1⟩), .header 102 (.ok ⟨100, 1⟩)])
      = ⟨.returned (some ⟨100, 1⟩) none, 1, 1, 0⟩ := by
  decide

/-- C7. Head-subscription mode: when the events before it left the call waiting
(none of the earlier headers produced a result and the bound is not reached), a
subscription error `e` ends the call at that event with no receipt and exactly
the error `e`; no receipt lookup is done for that event, so the lookups are
those of the earlier headers, and no later event is consumed. The event is
within the bound the code computes, which is `waitBlocks + confirms` when that
sum is in the range of `int`. -/
theorem WaitReceiptOnNewHead_subscription_error_ends
    (waitBlocks confirms : Int) (pre post : List HeadEvent) (e : Option Err)
    (hpre : (WaitReceiptOnNewHead waitBlocks confirms (.ok pre)).outcome = .waiting) :
    (pre.length : Int) + 1 ≤ loopBound waitBlocks confirms ∧
    (-2 ^ 63 ≤ waitBlocks + confirms → waitBlocks + confirms < 2 ^ 63 →
      (pre.length : Int) + 1 ≤ waitBlocks + confirms) ∧
    WaitReceiptOnNewHead waitBlocks confirms (.ok (pre ++ .subErr e :: post))
      = ⟨.returned none e, pre.length + 1, pre.length, 0⟩ ∧
    (WaitReceiptOnNewHead waitBlocks confirms (.ok pre)).receiptLookups = pre.length := by
  simp only [WaitReceiptOnNewHead] at hpre ⊢
  obtain ⟨hun, hlt⟩ := WaitReceiptOnNewHeadLoop_waiting _ _ _ _ hpre
  refine ⟨by omega, ?_, ?_, ?_⟩
  · intro hlo hhi
    rw [loopBound_of_range waitBlocks confirms hlo hhi] at hlt
    omega
  · rw [WaitReceiptOnNewHeadLoop_append _ _ _ _ _ hun (by omega),
      WaitReceiptOnNewHeadLoop_cons_subErr _ _ _ _ _ (by omega)]
    rfl
  · rw [WaitReceiptOnNewHeadLoop_unconfirmed _ _ _ _ hun hlt]

theorem WaitReceiptOnNewHead_subscription_error_ends_witness :
    WaitReceiptOnNewHead 5 3 (.ok ([.header 100 (.error "not found"),
        .header 101 (.ok ⟨101, 1⟩)] ++ .subErr (some "connection closed") ::
          [.header 104 (.ok ⟨101, 1⟩)]))
      = ⟨.returned none (some "connection closed"), 3, 2, 0⟩ :=
  (WaitReceiptOnNewHead_subscription_error_ends 5 3
    [.header 100 (.error "not found"), .header 101 (.ok ⟨101, 1⟩)]
    [.header 104 (.ok ⟨101, 1⟩)] (some "connection closed") (by decide)).2.2.1

/-! ## Confirmation depth -/

/-- C8 at the failing input: with `confirms = 3`, a poll that finds the receipt
at block 100 while the head lookup answers 99 computes the confirmation count
`99 - 100` in `uint64`, which wraps to `2^64 - 1`; the call returns the receipt
at that tick although `99 ≥ 100 + 3` is false. -/
theorem WaitReceipt_returns_below_inclusion_block :
    confirm 99 100 = 2 ^ 64 - 1 ∧ ¬ (99 ≥ 100 + 3) ∧
    WaitReceipt 5 3 [⟨.ok ⟨100, 1⟩, .ok 99⟩] = ⟨.returned (some ⟨100, 1⟩) none, 1, 1, 1⟩ := by
  decide

/-- C9 at the failing input: with `confirms = 3`, a header with number 99 on
which the receipt is found at block 100 (the transaction was included after
that header was emitted) gives the `uint64` confirmation count `2^64 - 1`; the
call returns the receipt at that header although `99 ≥ 100 + 3` is false. -/
theorem WaitReceiptOnNewHead_returns_below_inclusion_block :
    confirm 99 100 = 2 ^ 64 - 1 ∧ ¬ (99 ≥ 100 + 3) ∧
    WaitReceiptOnNewHead 5 3 (.ok [.header 99 (.ok ⟨100, 1⟩)])
      = ⟨.returned (some ⟨100, 1⟩) none, 1, 1, 0⟩ := by
  decide

/-- C10. The confirmation count `confirm h b`, the `uint64` subtraction used by
both waiters, is monotone and exact once the head has reached the inclusion
block: for `b ≤ h1 ≤ h2 < 2^64` it satisfies `confirm h1 b ≤ confirm h2 b`, it
equals the mathematical difference at both heads, and `confirm b b = 0`. -/
theorem confirm_monotone_exact (b h1 h2 : Nat) (hb : b ≤ h1) (h12 : h1 ≤ h2)
    (h64 : h2 < 2 ^ 64) :
    confirm h1 b ≤ confirm h2 b ∧
    (confirm h1 b : Int) = (h1 : Int) - b ∧
    (confirm h2 b : Int) = (h2 : Int) - b ∧
    confirm b b = 0 := by
  have e1 := confirm_of_le h1 b hb (by omega)
  have e2 := confirm_of_le h2 b (by omega) h64
  have e0 := confirm_of_le b b (le_refl b) (by omega)
  refine ⟨by omega, by omega, by omega, by omega⟩

theorem confirm_monotone_exact_witness :
    confirm 100 100 ≤ confirm 103 100 ∧
    (confirm 100 100 : Int) = (100 : Int) - 100 ∧
    (confirm 103 100 : Int) = (103 : Int) - 100 ∧
    confirm 100 100 = 0 := by
  have h := confirm_monotone_exact 100 100 103 (by decide) (by decide) (by decide)
  simpa using h

/-! ## The iterator and the scan loop -/

theorem Next_feed_lt (it it' : EIP20TransferIterator) (ev : EIP20Transfer)
    (h : it.Next = .yes ev it') : it'.feed.length < it.feed.length := by
  rcases it with ⟨done, fail, feed⟩
  unfold EIP20TransferIterator.Next at h
  simp only at h
  split at h
  · simp at h
  · split at h
    · unfold EIP20TransferIterator.nextAvailable at h
      simp only at h
      split at h
      · simp only [NextResult.yes.injEq] at h
        rw [← h.2]
        simp
      · simp at h
      · simp at h
    · split at h
      · simp at h
      · simp only [NextResult.yes.injEq] at h
        rw [← h.2]
        simp
      · simp at h
      · split at h
        · simp at h
        · unfold EIP20TransferIterator.nextAvailable at h
          simp only at h
          split at h
          · simp only [NextResult.yes.injEq] at h
            rw [← h.2]
            simp
            omega
          · simp at h
          · simp at h

/-- Fuel above the length of the feed is never used up: the loop over `Next`
gives the same run for every such fuel. -/
theorem forNext_fuel (fuel₁ : Nat) :
    ∀ (fuel₂ : Nat) (it : EIP20TransferIterator), it.feed.length < fuel₁ →
      it.feed.length < fuel₂ → forNext fuel₁ it = forNext fuel₂ it := by
  induction fuel₁ with
  | zero => intro _ it h; omega
  | succ f ih =>
    intro fuel₂ it _ h2
    cases fuel₂ with
    | zero => omega
    | succ g =>
      unfold forNext
      cases hN : it.Next with
      | blocked => rfl
      | no it' => rfl
      | yes ev it' =>
        have hlt := Next_feed_lt it it' ev hN
        simp only
        rw [ih g it' (by omega) (by omega)]

/-- Once the subscription has ended, the loop over `Next` delivers the logs
that are on the channel and stops. -/
theorem forNext_done_logs (l : List EIP20Transfer) :
    ∀ fuel, l.length < fuel →
      forNext fuel ⟨true, none, l.map (fun r => .log (.ok r))⟩ = ⟨l, false⟩ := by
  induction l with
  | nil =>
    intro fuel h
    cases fuel with
    | zero => omega
    | succ f =>
      simp [forNext, EIP20TransferIterator.Next, EIP20TransferIterator.nextAvailable]
  | cons r rs ih =>
    intro fuel h
    cases fuel with
    | zero => omega
    | succ f =>
      simp only [List.length_cons] at h
      simp [forNext, EIP20TransferIterator.Next, EIP20TransferIterator.nextAvailable,
        ih f (by omega)]

/-- The loop over `Next` delivers the logs received before the end of the
subscription and the logs left on the channel after it. -/
theorem forNext_logs_end_logs (a b : List EIP20Transfer) :
    ∀ fuel, a.length + b.length < fuel →
      forNext fuel ⟨false, none, a.map (fun r => .log (.ok r)) ++
        .subErr none :: b.map (fun r => .log (.ok r))⟩ = ⟨a ++ b, false⟩ := by
  induction a with
  | nil =>
    intro fuel h
    cases fuel with
    | zero => omega
    | succ f =>
      cases b with
      | nil =>
        simp [forNext, EIP20TransferIterator.Next, EIP20TransferIterator.nextAvailable]
      | cons r rs =>
        simp only [List.length_nil, List.length_cons] at h
        simp [forNext, EIP20TransferIterator.Next, EIP20TransferIterator.nextAvailable,
          forNext_done_logs rs f (by omega)]
  | cons r rs ih =>
    intro fuel h
    cases fuel with
    | zero => omega
    | succ f =>
      simp only [List.length_cons] at h
      have := ih f (by omega)
      simp [forNext, EIP20TransferIterator.Next, this]

theorem forNext_deliver (records : List EIP20Transfer) (sch : Schedule) :
    ∀ fuel, (sch.received records).length < fuel →
      forNext fuel ⟨false, none, deliver records sch⟩ = ⟨sch.received records, false⟩ := by
  intro fuel h
  have := forNext_logs_end_logs ((sch.received records).take sch.errAt)
    ((sch.received records).drop sch.errAt) fuel
    (by rw [← List.length_append, List.take_append_drop]; exact h)
  rw [List.take_append_drop] at this
  exact this

theorem deliver_length (records : List EIP20Transfer) (sch : Schedule) :
    (deliver records sch).length = (sch.received records).length + 1 := by
  have h := congrArg List.length (List.take_append_drop sch.errAt (sch.received records))
  simp only [List.length_append] at h
  simp only [deliver, List.length_append, List.length_map, List.length_cons]
  omega

theorem received_nil (sch : Schedule) : sch.received [] = [] := by
  simp [Schedule.received]

theorem received_cons (sch : Schedule) (r : EIP20Transfer) (rs : List EIP20Transfer) :
    sch.received (r :: rs) = r :: rs.take (min (max sch.pushed 1) 129 - 1) := by
  unfold Schedule.received
  have h : min (max sch.pushed 1) 129 = (min (max sch.pushed 1) 129 - 1) + 1 := by omega
  rw [h, List.take_succ_cons]
  simp

theorem received_head? (sch : Schedule) (records : List EIP20Transfer) :
    (sch.received records).head? = records.head? := by
  cases records with
  | nil => rw [received_nil]
  | cons r rs => rw [received_cons]; rfl

theorem FilterTransferEventScan_deliver_nil (s : Nat) (sch : Schedule)
    (rest : List (Except Err (List IterEvent))) :
    FilterTransferEventScan s (.ok (deliver [] sch) :: rest) =
      ⟨(FilterTransferEventScan ((s + 1) % 2 ^ 64) rest).outcome, 0, some s,
        (s, (s + 1) % 2 ^ 64) :: (FilterTransferEventScan ((s + 1) % 2 ^ 64) rest).queries,
        (FilterTransferEventScan ((s + 1) % 2 ^ 64) rest).reported⟩ := by
  rw [FilterTransferEventScan]
  simp only [deliver_length, forNext_deliver [] sch _ (Nat.lt_succ_of_le (Nat.le_succ _))]
  simp [received_nil]

theorem FilterTransferEventScan_deliver_cons (s : Nat) (sch : Schedule) (r : EIP20Transfer)
    (rs : List EIP20Transfer) (rest : List (Except Err (List IterEvent))) :
    FilterTransferEventScan s (.ok (deliver (r :: rs) sch) :: rest) =
      ⟨.returned none, 0, some s, [(s, (s + 1) % 2 ^ 64)], sch.received (r :: rs)⟩ := by
  rw [FilterTransferEventScan]
  simp only [deliver_length, forNext_deliver (r :: rs) sch _ (Nat.lt_succ_of_le (Nat.le_succ _))]
  simp [received_cons]

theorem rangesFrom_length (k : Nat) : ∀ s, (rangesFrom s k).length = k := by
  induction k with
  | zero => intro s; rfl
  | succ k ih => intro s; simp [rangesFrom, ih]

theorem rangesFrom_getElem? (k : Nat) :
    ∀ s i, i < k → (rangesFrom s k)[i]? = some (s + i, s + i + 1) := by
  induction k with
  | zero => intro s i h; omega
  | succ k ih =>
    intro s i h
    cases i with
    | zero => simp [rangesFrom]
    | succ i =>
      simp only [rangesFrom, List.getElem?_cons_succ]
      rw [ih (s + 1) i (by omega)]
      congr 2 <;> omega

/-- While the cursor stays in the range of `uint64`, the queries of the scan
are the ranges `[s, s+1]`, `[s+1, s+2]`, ... -/
theorem FilterTransferEventScan_queries (rounds : List (Except Err (List IterEvent))) :
    ∀ s, s + (FilterTransferEventScan s rounds).queries.length < 2 ^ 64 →
      (FilterTransferEventScan s rounds).queries =
        rangesFrom s (FilterTransferEventScan s rounds).queries.length := by
  induction rounds with
  | nil => intro s _; simp [FilterTransferEventScan, rangesFrom]
  | cons q rest ih =>
    intro s
    cases q with
    | error e =>
      rw [FilterTransferEventScan]
      simp only [List.length_singleton, rangesFrom]
      intro h
      rw [Nat.mod_eq_of_lt h]
    | ok feed =>
      rw [FilterTransferEventScan]
      simp only
      split
      · simp only [List.length_singleton, rangesFrom]
        intro h
        rw [Nat.mod_eq_of_lt h]
      · split
        · simp only [List.length_singleton, rangesFrom]
          intro h
          rw [Nat.mod_eq_of_lt h]
        · simp only [List.length_cons, rangesFrom]
          intro h
          have h1 : (s + 1) % 2 ^ 64 = s + 1 := Nat.mod_eq_of_lt (by omega)
          rw [h1] at h ⊢
          rw [← ih (s + 1) (by omega)]

theorem FilterTransferEventScan_start (s : Nat)
    (rounds : List (Except Err (List IterEvent))) :
    (FilterTransferEventScan s rounds).start = some s := by
  cases rounds with
  | nil => simp [FilterTransferEventScan]
  | cons q rest =>
    cases q with
    | error e => simp [FilterTransferEventScan]
    | ok feed =>
      rw [FilterTransferEventScan]
      simp only
      split
      · rfl
      · split <;> rfl

/-- The scan part of a run of `FilterTransferEvent` whose cursor was set. -/
theorem FilterTransferEvent_scan (confirms : Int)
    (rounds : List (Except Err (List IterEvent))) (heads : List (Except Err Nat)) :
    ∀ s, (FilterTransferEvent confirms heads rounds).start = some s →
      (FilterTransferEvent confirms heads rounds).queries
          = (FilterTransferEventScan s rounds).queries ∧
      (FilterTransferEvent confirms heads rounds).reported
          = (FilterTransferEventScan s rounds).reported ∧
      (FilterTransferEvent confirms heads rounds).outcome
          = (FilterTransferEventScan s rounds).outcome := by
  induction heads with
  | nil => intro s h; simp [FilterTransferEvent] at h
  | cons hd heads ih =>
    intro s h
    cases hd with
    | error e => simp [FilterTransferEvent] at h
    | ok num =>
      rw [FilterTransferEvent] at h ⊢
      split at h
      · rename_i hgt
        rw [if_pos hgt]
        simp only at h ⊢
        rw [FilterTransferEventScan_start] at h
        simp only [Option.some.injEq] at h
        subst h
        exact ⟨rfl, rfl, rfl⟩
      · rename_i hgt
        rw [if_neg hgt]
        simp only at h ⊢
        exact ih s h

theorem FilterTransferEvent_no_start (confirms : Int)
    (rounds : List (Except Err (List IterEvent))) (heads : List (Except Err Nat)) :
    (FilterTransferEvent confirms heads rounds).start = none →
      (FilterTransferEvent confirms heads rounds).queries = [] := by
  induction heads with
  | nil => intro _; simp [FilterTransferEvent]
  | cons hd heads ih =>
    cases hd with
    | error e => intro _; simp [FilterTransferEvent]
    | ok num =>
      rw [FilterTransferEvent]
      split
      · simp only
        intro h
        rw [FilterTransferEventScan_start] at h
        simp at h
      · simp only
        exact ih

/-- Heads that do not exceed the lookback depth are waited on: each costs one
head lookup and nothing else. -/
theorem FilterTransferEvent_skip (confirms : Int) (rest : List (Except Err Nat))
    (rounds : List (Except Err (List IterEvent))) (pre : List Nat)
    (hpre : ∀ x ∈ pre, x ≤ uint64 confirms) :
    FilterTransferEvent confirms (pre.map .ok ++ rest) rounds =
      ⟨(FilterTransferEvent confirms rest rounds).outcome,
       (FilterTransferEvent confirms rest rounds).headLookups + pre.length,
       (FilterTransferEvent confirms rest rounds).start,
       (FilterTransferEvent confirms rest rounds).queries,
       (FilterTransferEvent confirms rest rounds).reported⟩ := by
  induction pre with
  | nil => simp
  | cons x pre ih =>
    have hx := hpre x (List.mem_cons_self _ _)
    rw [List.map_cons, List.cons_append, FilterTransferEvent, if_neg (by omega),
      ih (fun y hy => hpre y (List.mem_cons_of_mem _ hy))]
    simp
    omega

/-! ## Claims on `FilterTransferEvent` -/

/-- C11. Start cursor of the scan, for a lookback depth `confirms ≥ 0`: the
observed heads `pre`, none above `confirms`, are waited on, and the first head
`h > confirms` sets the cursor to `h - confirms`, a subtraction that does not
underflow and gives a cursor of at least 1, after one head lookup per observed
head. While only heads up to `confirms` have been observed the call is waiting
and has issued no log query, and a run whose cursor is not set has no query. -/
theorem FilterTransferEvent_start_cursor (confirms : Int) (pre : List Nat) (h : Nat)
    (post : List (Except Err Nat)) (rounds : List (Except Err (List IterEvent)))
    (hc0 : 0 ≤ confirms) (hc1 : confirms < 2 ^ 63)
    (hpre : ∀ x ∈ pre, (x : Int) ≤ confirms) (hh : confirms < h) (h64 : h < 2 ^ 64) :
    (∃ s : Nat,
      (FilterTransferEvent confirms (pre.map .ok ++ .ok h :: post) rounds).start = some s ∧
      (s : Int) = (h : Int) - confirms ∧ 1 ≤ s) ∧
    (FilterTransferEvent confirms (pre.map .ok ++ .ok h :: post) rounds).headLookups
      = pre.length + 1 ∧
    FilterTransferEvent confirms (pre.map .ok) rounds = ⟨.waiting, pre.length, none, [], []⟩ ∧
    ∀ heads rounds', (FilterTransferEvent confirms heads rounds').start = none →
      (FilterTransferEvent confirms heads rounds').queries = [] := by
  have hu := uint64_of_nonneg confirms hc0 hc1
  have hpre' : ∀ x ∈ pre, x ≤ uint64 confirms := by
    intro x hx
    have := hpre x hx
    omega
  have hgt : h > uint64 confirms := by omega
  refine ⟨⟨sub64 h (uint64 confirms), ?_, ?_, ?_⟩, ?_, ?_, ?_⟩
  · rw [FilterTransferEvent_skip _ _ _ _ hpre', FilterTransferEvent, if_pos hgt]
    simp [FilterTransferEventScan_start]
  · unfold sub64
    omega
  · unfold sub64
    omega
  · rw [FilterTransferEvent_skip _ _ _ _ hpre', FilterTransferEvent, if_pos hgt]
    simp
    omega
  · have := FilterTransferEvent_skip confirms [] rounds pre hpre'
    simpa [FilterTransferEvent] using this
  · intro heads rounds'
    exact FilterTransferEvent_no_start confirms rounds' heads

theorem FilterTransferEvent_start_cursor_witness :
    (∃ s : Nat,
      (FilterTransferEvent 3 (([2, 3] : List Nat).map .ok ++ .ok 53 :: [.ok 60])
        [.ok [.subErr none]]).start = some s ∧
      (s : Int) = ((53 : Nat) : Int) - 3 ∧ 1 ≤ s) ∧
    (FilterTransferEvent 3 (([2, 3] : List Nat).map .ok ++ .ok 53 :: [.ok 60])
        [.ok [.subErr none]]).headLookups = ([2, 3] : List Nat).length + 1 :=
  have h := FilterTransferEvent_start_cursor 3 [2, 3] 53 [.ok 60] [.ok [.subErr none]]
    (by decide) (by decide)
    (by
      intro x hx
      simp only [List.mem_cons, List.mem_singleton, List.mem_nil_iff, or_false] at hx
      rcases hx with rfl | rfl <;> decide)
    (by decide) (by decide)
  ⟨h.1, h.2.1⟩

/-- C12. Cursor invariant of the scan: in a run whose cursor was set to `s` (and
stays in the range of `uint64`), the query of round `k` covers exactly the range
`[s + k, s + k + 1]`; so the cursor of round `k` is `s + k`, it grows by exactly
one after each round that reported no record, and never decreases. -/
theorem FilterTransferEvent_cursor_advances (confirms : Int)
    (heads : List (Except Err Nat)) (rounds : List (Except Err (List IterEvent)))
    (s : Nat) (hs : (FilterTransferEvent confirms heads rounds).start = some s)
    (h64 : s + (FilterTransferEvent confirms heads rounds).queries.length < 2 ^ 64) :
    ∀ k, k < (FilterTransferEvent confirms heads rounds).queries.length →
      (FilterTransferEvent confirms heads rounds).queries[k]? = some (s + k, s + k + 1) := by
  intro k hk
  have hq := (FilterTransferEvent_scan confirms rounds heads s hs).1
  rw [hq] at h64 hk ⊢
  rw [FilterTransferEventScan_queries rounds s h64]
  exact rangesFrom_getElem? _ s k hk

theorem FilterTransferEvent_cursor_advances_witness :
    (FilterTransferEvent 3 [.ok 53] [.ok [.subErr none], .ok [.subErr none],
      .ok [.log (.ok ⟨52, "a", 0⟩), .subErr none]]).queries[2]? = some (50 + 2, 50 + 2 + 1) :=
  FilterTransferEvent_cursor_advances 3 [.ok 53] [.ok [.subErr none], .ok [.subErr none],
    .ok [.log (.ok ⟨52, "a", 0⟩), .subErr none]] 50 (by decide) (by decide) 2 (by decide)

/-- The scan on a fixed ledger whose lowest block from `s` on with a matching
record is `b`, under any schedule of its rounds: it ends in the round with
cursor `max s (b - 1)`, after the queries `[s, s+1]`, ..., and reports the
records of that round that reached the iterator. -/
theorem FilterTransferEventScan_ledger (ledger : Nat → List EIP20Transfer)
    (sched : Nat → Schedule) (b : Nat)
    (hb : ledger b ≠ []) (h64 : b + 1 < 2 ^ 64) (n : Nat) :
    ∀ s, s ≤ b → (∀ c, s ≤ c → c < b → ledger c = []) → max s (b - 1) - s < n →
      FilterTransferEventScan s (ledgerRounds ledger sched s n) =
        ⟨.returned none, 0, some s, rangesFrom s (max s (b - 1) - s + 1),
          (sched (max s (b - 1))).received
            (ledger (max s (b - 1)) ++ ledger (max s (b - 1) + 1))⟩ := by
  induction n with
  | zero => intro s _ _ h; omega
  | succ n ih =>
    intro s hsb hempty hn
    rw [ledgerRounds]
    by_cases hlt : s + 1 < b
    · have hm : max s (b - 1) = b - 1 := by omega
      have hm' : max (s + 1) (b - 1) = b - 1 := by omega
      rw [hempty s (le_refl s) (by omega), hempty (s + 1) (by omega) hlt, List.append_nil,
        FilterTransferEventScan_deliver_nil, Nat.mod_eq_of_lt (by omega : s + 1 < 2 ^ 64),
        ih (s + 1) (by omega) (fun c h1 h2 => hempty c (by omega) h2) (by omega), hm, hm']
      have hk : b - 1 - s + 1 = (b - 1 - (s + 1) + 1) + 1 := by omega
      rw [hk]
      simp [rangesFrom]
    · have hm : max s (b - 1) = s := by omega
      have hne : ledger s ++ ledger (s + 1) ≠ [] := by
        intro h
        rw [List.append_eq_nil] at h
        rcases Nat.lt_or_ge s b with h1 | h1
        · have : b = s + 1 := by omega
          exact hb (this ▸ h.2)
        · have : b = s := by omega
          exact hb (this ▸ h.1)
      rw [hm]
      cases hrec : ledger s ++ ledger (s + 1) with
      | nil => exact absurd hrec hne
      | cons r rs =>
        rw [FilterTransferEventScan_deliver_cons, Nat.mod_eq_of_lt (by omega : s + 1 < 2 ^ 64)]
        simp [rangesFrom]

/-- C13. The scan finds the first matching block. On a fixed assignment
`ledger` of matching records to blocks, from the start cursor `s`, when `b` is
the lowest block `≥ s` that holds a matching record and the trace has the rounds
up to cursor `max s (b - 1)`, under every schedule of the rounds (whichever
`select` branch takes the end of the subscription, and however many logs the
producer has put on the channel when the filter is closed): the scan returns,
the first record it reports is the first record of block `b`, the round in
which it ends is the one with cursor `max s (b - 1)`, which is round number
`max s (b - 1) - s`, and what it reports is a non-empty initial segment of the
records found by that round (nothing is reported in earlier rounds). -/
theorem FilterTransferEventScan_finds_first_matching_block
    (ledger : Nat → List EIP20Transfer) (sched : Nat → Schedule) (s b n : Nat)
    (hsb : s ≤ b) (hempty : ∀ c, s ≤ c → c < b → ledger c = [])
    (hb : ledger b ≠ []) (h64 : b + 1 < 2 ^ 64) (hn : max s (b - 1) - s < n) :
    (FilterTransferEventScan s (ledgerRounds ledger sched s n)).outcome = .returned none ∧
    (FilterTransferEventScan s (ledgerRounds ledger sched s n)).reported.head?
      = (ledger b).head? ∧
    (FilterTransferEventScan s (ledgerRounds ledger sched s n)).queries.length
      = max s (b - 1) - s + 1 ∧
    (FilterTransferEventScan s (ledgerRounds ledger sched s n)).queries[max s (b - 1) - s]?
      = some (max s (b - 1), max s (b - 1) + 1) ∧
    (FilterTransferEventScan s (ledgerRounds ledger sched s n)).reported
      = (sched (max s (b - 1))).received
          (ledger (max s (b - 1)) ++ ledger (max s (b - 1) + 1)) ∧
    (FilterTransferEventScan s (ledgerRounds ledger sched s n)).reported ≠ [] := by
  rw [FilterTransferEventScan_ledger ledger sched b hb h64 n s hsb hempty hn]
  have hhead : ((sched (max s (b - 1))).received
      (ledger (max s (b - 1)) ++ ledger (max s (b - 1) + 1))).head? = (ledger b).head? := by
    rw [received_head?]
    rcases Nat.lt_or_ge s b with h1 | h1
    · have hm : max s (b - 1) = b - 1 := by omega
      have hb1 : b - 1 + 1 = b := by omega
      rw [hm, hempty (b - 1) (by omega) (by omega), hb1, List.nil_append]
    · have hsb' : b = s := by omega
      subst hsb'
      have hm : max b (b - 1) = b := by omega
      rw [hm]
      cases hl : ledger b with
      | nil => exact absurd hl hb
      | cons r rs => simp
  refine ⟨rfl, hhead, ?_, ?_, rfl, ?_⟩
  · simp [rangesFrom_length]
  · simp only
    rw [rangesFrom_getElem? _ s _ (by omega)]
    congr 2 <;> omega
  · simp only
    intro hnil
    rw [hnil] at hhead
    cases hl : ledger b with
    | nil => exact absurd hl hb
    | cons r rs => rw [hl] at hhead; simp at hhead

theorem FilterTransferEventScan_finds_first_matching_block_witness :
    (FilterTransferEventScan 50 (ledgerRounds
      (fun c => if c = 55 then [⟨55, "a", 0⟩, ⟨55, "a", 1⟩, ⟨55, "b", 2⟩] else [])
      (fun _ => ⟨2, 0⟩) 50 6)).outcome = .returned none ∧
    (FilterTransferEventScan 50 (ledgerRounds
      (fun c => if c = 55 then [⟨55, "a", 0⟩, ⟨55, "a", 1⟩, ⟨55, "b", 2⟩] else [])
      (fun _ => ⟨2, 0⟩) 50 6)).reported = [⟨55, "a", 0⟩, ⟨55, "a", 1⟩] :=
  have h := FilterTransferEventScan_finds_first_matching_block
    (fun c => if c = 55 then [⟨55, "a", 0⟩, ⟨55, "a", 1⟩, ⟨55, "b", 2⟩] else [])
    (fun _ => ⟨2, 0⟩) 50 55 6 (by decide)
    (by intro c _ h2; simp only [ite_eq_right_iff]; intro h; omega)
    (by simp) (by decide) (by decide)
  ⟨h.1, h.2.2.2.2.1.trans (by decide)⟩

/-- C14 at the failing input: the query of the round with cursor 54 finds two
transfer logs of block 55 and both are on the channel of the iterator. The loop
`for it.Next()` has no `break`, so after the first record, and `it.Close()`,
`Next` is called again and delivers the second one: two records are reported
in one call, not one. -/
theorem FilterTransferEvent_reports_every_record_of_round :
    FilterTransferEvent 3 [.ok 57]
        [.ok [.log (.ok ⟨55, "0xaa", 0⟩), .log (.ok ⟨55, "0xbb", 1⟩), .subErr none]]
      = ⟨.returned none, 1, some 54, [(54, 55)], [⟨55, "0xaa", 0⟩, ⟨55, "0xbb", 1⟩]⟩ := by
  decide

/-- C15 at the failing input: the transport delivers the log with the triple
(block 55, transaction `0xaa`, index 0) twice in the answer to one query. The
loop reports every log `Next` delivers, so the same triple is reported twice. -/
theorem FilterTransferEvent_reports_redelivered_record_twice :
    (FilterTransferEvent 3 [.ok 57]
        [.ok [.log (.ok ⟨55, "0xaa", 0⟩), .log (.ok ⟨55, "0xaa", 0⟩), .subErr none]]).reported
      = [⟨55, "0xaa", 0⟩, ⟨55, "0xaa", 0⟩] := by
  decide

theorem rangesFrom_getElem?_some (k s i : Nat) (q : Nat × Nat)
    (h : (rangesFrom s k)[i]? = some q) : q = (s + i, s + i + 1) := by
  by_cases hi : i < k
  · rw [rangesFrom_getElem? k s i hi] at h
    exact (Option.some.inj h).symm
  · rw [List.getElem?_eq_none (by rw [rangesFrom_length]; omega)] at h
    exact absurd h (by simp)

/-- C16 fails as stated: a scan from cursor 50 whose first two rounds find
nothing queries the ranges `[50, 51]` and `[51, 52]`; block 51 is covered by
both rounds. -/
theorem FilterTransferEventScan_queries_block_twice :
    (FilterTransferEventScan 50 [.ok [.subErr none], .ok [.subErr none]]).queries
      = [(50, 51), (51, 52)] ∧
    covers (50, 51) 51 = true ∧ covers (51, 52) 51 = true := by
  decide

/-- C16, amended. The scan never rewinds: the start of the queried range grows
from round to round, and a block number covered by the ranges of two rounds is
covered by the same round or by two consecutive rounds, so no block is queried
more than twice. In a scan from cursor 50 on a ledger whose first matching log
from block 50 on is in block 55, under every schedule of the rounds, the
reported record has block 55 and the queries are `[50, 51]`, `[51, 52]`,
`[52, 53]`, `[53, 54]`, `[54, 55]`. -/
theorem FilterTransferEventScan_revisits_only_in_next_round :
    (∀ (rounds : List (Except Err (List IterEvent))) (s : Nat),
      s + (FilterTransferEventScan s rounds).queries.length < 2 ^ 64 →
      ∀ (i j x : Nat) (qi qj : Nat × Nat),
        (FilterTransferEventScan s rounds).queries[i]? = some qi →
        (FilterTransferEventScan s rounds).queries[j]? = some qj →
        (i < j → qi.1 < qj.1) ∧
        (covers qi x = true → covers qj x = true → i ≤ j + 1 ∧ j ≤ i + 1)) ∧
    (∀ (ledger : Nat → List EIP20Transfer) (sched : Nat → Schedule) (n : Nat),
      (∀ c, 50 ≤ c → c < 55 → ledger c = []) → ledger 55 ≠ [] →
      (∀ r ∈ ledger 55, r.blockNumber = 55) → 4 < n →
      (FilterTransferEventScan 50 (ledgerRounds ledger sched 50 n)).queries
        = [(50, 51), (51, 52), (52, 53), (53, 54), (54, 55)] ∧
      (FilterTransferEventScan 50 (ledgerRounds ledger sched 50 n)).reported.head?.map
        EIP20Transfer.blockNumber = some 55) := by
  constructor
  · intro rounds s h64 i j x qi qj hi hj
    rw [FilterTransferEventScan_queries rounds s h64] at hi hj
    have ei := rangesFrom_getElem?_some _ _ _ _ hi
    have ej := rangesFrom_getElem?_some _ _ _ _ hj
    subst ei ej
    simp only [covers, decide_eq_true_eq]
    constructor
    · intro h; omega
    · intro h1 h2; omega
  · intro ledger sched n hempty hb hwf hn
    rw [FilterTransferEventScan_ledger ledger sched 55 hb (by decide) n 50 (by decide) hempty
      (by simpa using hn)]
    refine ⟨by simp [rangesFrom], ?_⟩
    simp only [received_head?, show max 50 (55 - 1) = 54 by decide,
      hempty 54 (by decide) (by decide), List.nil_append]
    cases hl : ledger 55 with
    | nil => exact absurd hl hb
    | cons r rs =>
      have := hwf r (by rw [hl]; exact List.mem_cons_self _ _)
      simp [this]

theorem FilterTransferEventScan_revisits_only_in_next_round_witness :
    ((0 : Nat) < 1 → ((50, 51) : Nat × Nat).1 < ((51, 52) : Nat × Nat).1) ∧
    (covers (50, 51) 51 = true → covers (51, 52) 51 = true → 0 ≤ 1 + 1 ∧ 1 ≤ 0 + 1) :=
  FilterTransferEventScan_revisits_only_in_next_round.1
    [.ok [.subErr none], .ok [.subErr none]] 50 (by decide) 0 1 51 (50, 51) (51, 52)
    (by decide) (by decide)

/-! ## Claims on `WatchTransferEvent` -/

/-- C17. Subscription mode is single-shot: when the first event is a delivered
record, the call reports that record, unsubscribes and returns, consuming
nothing that is delivered after it; and on every sequence of subscription
events, and also when the subscription cannot be opened, it reports at most
one record and consumes at most one event. -/
theorem WatchTransferEvent_single_shot :
    (∀ (ev : EIP20Transfer) (post : List WatchEvent),
      WatchTransferEvent (.ok (.transfer ev :: post)) = ⟨.returned none, 1, [ev], true⟩) ∧
    (∀ sub : Except Err (List WatchEvent),
      (WatchTransferEvent sub).reported.length ≤ 1 ∧ (WatchTransferEvent sub).consumed ≤ 1) := by
  constructor
  · intro ev post
    simp [WatchTransferEvent, WatchTransferEventLoop]
  · intro sub
    cases sub with
    | error e => simp [WatchTransferEvent]
    | ok events =>
      cases events with
      | nil => simp [WatchTransferEvent, WatchTransferEventLoop]
      | cons e rest =>
        cases e <;> simp [WatchTransferEvent, WatchTransferEventLoop]

/-- C18. Subscription mode: when the first event is a subscription error the
call returns at that event and reports no record, whatever follows; and when
the subscription cannot be opened, the call returns at once, having logged
the error, consumed nothing and reported no record. -/
theorem WatchTransferEvent_error_ends :
    (∀ (e : Option Err) (post : List WatchEvent),
      WatchTransferEvent (.ok (.subErr e :: post)) = ⟨.returned e, 1, [], false⟩) ∧
    (∀ err : Err, WatchTransferEvent (.error err) = ⟨.returned (some err), 0, [], false⟩) := by
  constructor
  · intro e post
    simp [WatchTransferEvent, WatchTransferEventLoop]
  · intro err
    simp [WatchTransferEvent]

/-! ## Claims on error handling in the receipt waiters -/

/-- C19 fails as stated: with `tryTimes = 5`, a first tick that finds the
receipt and whose head lookup fails ends the call with that error at once,
although only one of five ticks has elapsed and a later tick would have
confirmed the receipt. -/
theorem WaitReceipt_head_failure_not_retried :
    WaitReceipt 5 3 [⟨.ok ⟨100, 1⟩, .error "connection reset"⟩, ⟨.ok ⟨100, 1⟩, .ok 103⟩]
      = ⟨.returned none (some "connection reset"), 1, 1, 1⟩ ∧
    (2 : Int) ≤ 5 ∧ (1 : Int) < 5 := by
  decide

/-- C19, amended. In `WaitReceipt` only a failed receipt lookup is retried up to
the budget: while the call is still polling, a tick on which the receipt is
found and the head lookup fails ends the call at that tick with no receipt and
the error of the head lookup, for every `tryTimes` and however many ticks have
elapsed; later ticks are not consumed. -/
theorem WaitReceipt_head_failure_ends_call (tryTimes confirms : Int)
    (pre post : List Tick) (r : Receipt) (e : Err)
    (hpre : (WaitReceipt tryTimes confirms pre).outcome = .waiting) :
    WaitReceipt tryTimes confirms (pre ++ ⟨.ok r, .error e⟩ :: post) =
      ⟨.returned none (some e), pre.length + 1, pre.length + 1,
        (WaitReceipt tryTimes confirms pre).headLookups + 1⟩ := by
  unfold WaitReceipt at hpre ⊢
  rw [WaitReceiptLoop_append _ _ _ _ _ hpre, WaitReceiptLoop_cons_headError]

theorem WaitReceipt_head_failure_ends_call_witness :
    WaitReceipt 5 3 ([⟨.ok ⟨100, 1⟩, .ok 101⟩] ++
        ⟨.ok ⟨100, 1⟩, .error "connection reset"⟩ :: [⟨.ok ⟨100, 1⟩, .ok 103⟩])
      = ⟨.returned none (some "connection reset"), 2, 2, 2⟩ :=
  WaitReceipt_head_failure_ends_call 5 3 [⟨.ok ⟨100, 1⟩, .ok 101⟩]
    [⟨.ok ⟨100, 1⟩, .ok 103⟩] ⟨100, 1⟩ "connection reset" (by decide)

/-- C20 fails as stated: when `SubscribeNewHead` fails, the call does not return
an error to its caller; it reaches `log.Fatal`, which ends the process. -/
theorem WaitReceiptOnNewHead_subscribe_failure_exits :
    (WaitReceiptOnNewHead 5 3 (.error "notifications not supported")).outcome = .exited ∧
    (WaitReceiptOnNewHead 5 3 (.error "notifications not supported")).outcome
      ≠ .returned none (some "notifications not supported") := by
  decide

/-- C20, amended. When the transport cannot establish the new-head
subscription, `WaitReceiptOnNewHead` returns nothing to its caller: the process
is terminated (`log.Fatal`), for every `waitBlocks` and `confirms`, without any
receipt lookup and without consuming any event. -/
theorem WaitReceiptOnNewHead_subscribe_failure (waitBlocks confirms : Int) (e : Err) :
    WaitReceiptOnNewHead waitBlocks confirms (.error e) = ⟨.exited, 0, 0, 0⟩ := by
  rfl

/-- C22 at the failing input: the first event selected is a `nil` value from
`sub.Err()` (the client quit). The call executes `return nil, err` with that
`nil`: its result is no receipt and no error. -/
theorem WaitReceiptOnNewHead_returns_nil_nil :
    WaitReceiptOnNewHead 5 3 (.ok [.subErr none]) = ⟨.returned none none, 1, 0, 0⟩ := by
  decide

/-! ## The scan cursor and the ledger head -/

theorem FilterTransferEventScan_queries_length_le
    (rounds : List (Except Err (List IterEvent))) :
    ∀ s, (FilterTransferEventScan s rounds).queries.length ≤ rounds.length := by
  induction rounds with
  | nil => intro s; simp [FilterTransferEventScan]
  | cons q rest ih =>
    intro s
    cases q with
    | error e => simp [FilterTransferEventScan]
    | ok feed =>
      rw [FilterTransferEventScan]
      simp only
      split
      · simp
      · split
        · simp
        · simpa using ih ((s + 1) % 2 ^ 64)

/-- C23 fails as stated: with lookback 3 the head 53 sets the cursor to 50; when
the ledger head is still 53 in the next three rounds (a non-decreasing
sequence of heads), the fourth round queries the range `[53, 54]`, whose end
is above the head. With lookback 0 the first round already queries
`[53, 54]` under the head 53. -/
theorem FilterTransferEvent_cursor_overtakes_head :
    (FilterTransferEvent 3 [.ok 53]
      [.ok [.subErr none], .ok [.subErr none], .ok [.subErr none], .ok [.subErr none]]).queries
      = [(50, 51), (51, 52), (52, 53), (53, 54)] ∧
    (FilterTransferEvent 0 [.ok 53] [.ok [.subErr none]]).queries = [(53, 54)] ∧
    ¬ (54 ≤ 53) := by
  decide

/-- C23, amended. The scan does not read the head again: in round `k` it
queries the range that starts at `h0 - confirms + k` and ends one block later,
where `h0` is the head that set the cursor. For a lookback `confirms ≥ 1` and
ledger heads that advance by at least one block per round (`head k ≥ h0 + k`),
the end of the queried range is at most the ledger head of that round in every
round. -/
theorem FilterTransferEvent_range_end_within_advancing_head
    (confirms : Int) (h0 : Nat) (rounds : List (Except Err (List IterEvent)))
    (head : Nat → Nat) (hc0 : 1 ≤ confirms) (hc1 : confirms < 2 ^ 63)
    (hh : confirms < h0) (h64 : h0 + rounds.length < 2 ^ 64)
    (hpace : ∀ k, h0 + k ≤ head k) :
    ∀ (k : Nat) (q : Nat × Nat),
      (FilterTransferEvent confirms [.ok h0] rounds).queries[k]? = some q →
      (q.1 : Int) = (h0 : Int) - confirms + (k : Int) ∧ q.2 = q.1 + 1 ∧ q.2 ≤ head k := by
  intro k q hq
  have hu := uint64_of_nonneg confirms (by omega) hc1
  have hgt : h0 > uint64 confirms := by omega
  have hs : sub64 h0 (uint64 confirms) + uint64 confirms = h0 := by
    unfold sub64
    omega
  have hlen := FilterTransferEventScan_queries_length_le rounds (sub64 h0 (uint64 confirms))
  rw [FilterTransferEvent, if_pos hgt] at hq
  simp only at hq
  rw [FilterTransferEventScan_queries rounds _ (by omega)] at hq
  have hq' := rangesFrom_getElem?_some _ _ _ _ hq
  subst hq'
  have := hpace k
  refine ⟨?_, rfl, ?_⟩
  · simp only
    omega
  · simp only
    omega

theorem FilterTransferEvent_range_end_within_advancing_head_witness :
    ((52 : Nat) : Int) = ((53 : Nat) : Int) - 3 + (2 : Nat) ∧ 53 = 52 + 1 ∧ 53 ≤ 53 + 2 :=
  FilterTransferEvent_range_end_within_advancing_head 3 53
    [.ok [.subErr none], .ok [.subErr none], .ok [.subErr none], .ok [.subErr none]]
    (fun k => 53 + k) (by decide) (by decide) (by decide) (by decide)
    (fun _ => le_refl _) 2 (52, 53) (by decide)

/-! ## Transport-mode selection -/

theorem trimRight_cons_of_not_space (c : Char) (cs : List Char) (hc : isSpace c = false) :
    trimRight (c :: cs) = c :: trimRight cs := by
  rw [trimRight]
  cases trimRight cs with
  | nil => simp [hc]
  | cons r rs => rfl

theorem trimRight_initial (l : List Char) : trimRight l <+: l := by
  induction l with
  | nil => exact List.prefix_refl _
  | cons c cs ih =>
    rw [trimRight]
    cases h : trimRight cs with
    | nil =>
      simp only
      split
      · exact List.nil_prefix
      · exact ⟨cs, rfl⟩
    | cons r rs =>
      simp only
      rw [h] at ih
      obtain ⟨t, ht⟩ := ih
      exact ⟨t, by rw [← ht]; rfl⟩

theorem dropWhile_space_append (ws : List Char) (a : Char) (l : List Char)
    (hws : ∀ c ∈ ws, isSpace c = true) (ha : isSpace a = false) :
    (ws ++ a :: l).dropWhile isSpace = a :: l := by
  induction ws with
  | nil => simp [List.dropWhile, ha]
  | cons w ws ih =>
    rw [List.cons_append, List.dropWhile_cons, if_pos (hws w (List.mem_cons_self _ _))]
    exact ih (fun c hc => hws c (List.mem_cons_of_mem _ hc))

/-- The trimmed URL starts with `http` exactly when the URL is white space
followed by `http`. -/
theorem HasPrefix_TrimSpace_http (url : String) :
    HasPrefix (TrimSpace url) "http" = true ↔
      ∃ ws rest, url.data = ws ++ "http".data ++ rest ∧ ∀ c ∈ ws, isSpace c = true := by
  unfold HasPrefix TrimSpace
  simp only [ List.isPrefixOf_iff_prefix]
  constructor
  · intro h
    obtain ⟨rest, hrest⟩ := h.trans (trimRight_initial _)
    refine ⟨url.data.takeWhile isSpace, rest, ?_, ?_⟩
    · rw [List.append_assoc, hrest, List.takeWhile_append_dropWhile]
    · intro c hc
      exact (List.mem_takeWhile_imp hc)
  · rintro ⟨ws, rest, hurl, hws⟩
    have hd : url.data.dropWhile isSpace = 'h' :: 't' :: 't' :: 'p' :: rest := by
      rw [hurl, List.append_assoc]
      exact dropWhile_space_append ws 'h' ('t' :: 't' :: 'p' :: rest) hws (by decide)
    rw [hd, trimRight_cons_of_not_space _ _ (by decide),
      trimRight_cons_of_not_space _ _ (by decide), trimRight_cons_of_not_space _ _ (by decide),
      trimRight_cons_of_not_space _ _ (by decide)]
    exact ⟨trimRight rest, rfl⟩

theorem HasPrefix_TrimSpace_ws (rest : List Char) :
    HasPrefix (TrimSpace ⟨'w' :: rest⟩) "http" = false := by
  unfold HasPrefix TrimSpace
  have hd : ('w' :: rest).dropWhile isSpace = 'w' :: rest := by
    rw [List.dropWhile_cons, if_neg (by decide)]
  simp only [hd, trimRight_cons_of_not_space _ _ (by decide : isSpace 'w' = false)]
  rfl

theorem LoadConfig_ok (url : String) :
    LoadConfig (.ok url) (.ok ()) = some ⟨url, HasPrefix (TrimSpace url) "http"⟩ := by
  unfold LoadConfig
  cases h : HasPrefix (TrimSpace url) "http" <;> simp [h]

theorem HasPrefix_TrimSpace_http_append (rest : String) :
    HasPrefix (TrimSpace ("http" ++ rest)) "http" = true :=
  (HasPrefix_TrimSpace_http _).2 ⟨[], rest.data, by simp, by simp⟩

/-- C24. Transport-mode selection. `LoadConfig`, when it returns, leaves `RpcUrl`
as read and sets `isHttp` to the value of
`strings.HasPrefix(strings.TrimSpace(RpcUrl), "http")`, which is true exactly
when `RpcUrl` is white space followed by `http`. So a URL that begins with
`http://` or `https://` selects the pull mode, and a URL that begins with
`ws://` or `wss://`, like every URL whose trimmed form does not begin with
`http`, selects the push mode. `main` runs `WaitReceipt` and
`FilterTransferEvent` when `isHttp` is true, and `WaitReceiptOnNewHead` and
`WatchTransferEvent` when it is false. -/
theorem LoadConfig_selects_transport_mode :
    (∀ url : String,
      LoadConfig (.ok url) (.ok ()) = some ⟨url, HasPrefix (TrimSpace url) "http"⟩) ∧
    (∀ url : String, HasPrefix (TrimSpace url) "http" = true ↔
      ∃ ws rest, url.data = ws ++ "http".data ++ rest ∧ ∀ c ∈ ws, isSpace c = true) ∧
    (∀ rest : String,
      LoadConfig (.ok ("http://" ++ rest)) (.ok ()) = some ⟨"http://" ++ rest, true⟩ ∧
      LoadConfig (.ok ("https://" ++ rest)) (.ok ()) = some ⟨"https://" ++ rest, true⟩ ∧
      LoadConfig (.ok ("ws://" ++ rest)) (.ok ()) = some ⟨"ws://" ++ rest, false⟩ ∧
      LoadConfig (.ok ("wss://" ++ rest)) (.ok ()) = some ⟨"wss://" ++ rest, false⟩) ∧
    (∀ (cfg : Config) (ticks : List Tick) (sub : Except Err (List HeadEvent))
      (heads : List (Except Err Nat)) (rounds : List (Except Err (List IterEvent)))
      (wsub : Except Err (List WatchEvent)),
      (cfg.isHttp = true →
        mainWaitReceipt cfg ticks sub = WaitReceipt 5 3 ticks ∧
        mainWaitEvent cfg heads rounds wsub = .inl (FilterTransferEvent 3 heads rounds)) ∧
      (cfg.isHttp = false →
        mainWaitReceipt cfg ticks sub = WaitReceiptOnNewHead 5 3 sub ∧
        mainWaitEvent cfg heads rounds wsub = .inr (WatchTransferEvent wsub))) := by
  refine ⟨LoadConfig_ok, HasPrefix_TrimSpace_http, ?_, ?_⟩
  · intro rest
    refine ⟨?_, ?_, ?_, ?_⟩
    · rw [LoadConfig_ok]
      have h := HasPrefix_TrimSpace_http_append ("://" ++ rest)
      rw [← String.append_assoc] at h
      rw [show ("http" ++ "://" : String) = "http://" from by decide] at h
      rw [h]
    · rw [LoadConfig_ok]
      have h := HasPrefix_TrimSpace_http_append ("s://" ++ rest)
      rw [← String.append_assoc] at h
      rw [show ("http" ++ "s://" : String) = "https://" from by decide] at h
      rw [h]
    · rw [LoadConfig_ok]
      have h := HasPrefix_TrimSpace_ws ("s://".data ++ rest.data)
      rw [show ("ws://" ++ rest : String) = ⟨'w' :: ("s://".data ++ rest.data)⟩ from by
        apply String.ext; simp]
      rw [h]
    · rw [LoadConfig_ok]
      have h := HasPrefix_TrimSpace_ws ("ss://".data ++ rest.data)
      rw [show ("wss://" ++ rest : String) = ⟨'w' :: ("ss://".data ++ rest.data)⟩ from by
        apply String.ext; simp]
      rw [h]
  · intro cfg ticks sub heads rounds wsub
    constructor
    · intro h
      simp [mainWaitReceipt, mainWaitEvent, h]
    · intro h
      simp [mainWaitReceipt, mainWaitEvent, h]

theorem LoadConfig_selects_transport_mode_witness :
    LoadConfig (.ok ("https://" ++ "node.example:8545")) (.ok ())
      = some ⟨"https://" ++ "node.example:8545", true⟩ ∧
    mainWaitReceipt ⟨"https://node.example:8545", true⟩ [⟨.ok ⟨100, 1⟩, .ok 103⟩]
        (.ok [.subErr none])
      = WaitReceipt 5 3 [⟨.ok ⟨100, 1⟩, .ok 103⟩] :=
  ⟨(LoadConfig_selects_transport_mode.2.2.1 "node.example:8545").2.1,
   ((LoadConfig_selects_transport_mode.2.2.2 ⟨"https://node.example:8545", true⟩
      [⟨.ok ⟨100, 1⟩, .ok 103⟩] (.ok [.subErr none]) [] [] (.ok [])).1 rfl).1⟩

end DappDemo
